import Mathlib

/-!
Verification of the composite scoring and cohort-normalization engine of the
dive-bar-detective repository (src/api.py), as a shallow embedding in Lean 4.

Modelling conventions:
* Python floats are modelled as exact rationals (`ℚ`); the transcendental
  library calls (`math.tanh`, `math.log10`, `math.exp`) are threaded through as
  an explicit function parameter (`Transcendental`), since the scoring claims
  either do not depend on their values or only need `tanh 0 = 0`.  A direct
  real-number (`ℝ`) transcription of the underrated/residual fallback formula
  (`underratedFallbackR`) is used for the one claim that needs a concrete
  value of `tanh`.
* Python `round(x, 1)` (round half to even) is `round1`; `_clamp` is `clamp`.
* A Python place dict is the structure `Place`; a key that is absent, `None`,
  `NaN`, or not float-coercible is `none` (matching the `_safe_float(x, None)`
  / `isinstance`+`isnan` checks in the source).
* Python's stable `list.sort` is modelled by the stable `List.insertionSort`.
-/

namespace DiveBar

/-- Python `_clamp(x, lo, hi) = max(lo, min(hi, x))` (api.py line 99). -/
def clamp {α : Type} [LinearOrder α] (x lo hi : α) : α := max lo (min hi x)

/-- Round to the nearest integer, ties to even: the rounding used by Python's
builtin `round` on exact values. -/
def rnearest {α : Type} [LinearOrderedField α] [FloorRing α] (x : α) : ℤ :=
  if x - (⌊x⌋ : α) < 1/2 then ⌊x⌋
  else if 1/2 < x - (⌊x⌋ : α) then ⌊x⌋ + 1
  else if 2 ∣ ⌊x⌋ then ⌊x⌋ else ⌊x⌋ + 1

/-- Python `round(x, 1)`: round to one decimal digit, ties to even. -/
def round1 {α : Type} [LinearOrderedField α] [FloorRing α] (x : α) : α :=
  (rnearest (x * 10) : α) / 10

/-- The `math.tanh` / `math.log10` / `math.exp` functions used by the scoring
code, abstracted as rational-valued function parameters (Python floats are
rationals; the claims below never depend on more than `tanh 0 = 0`). -/
structure Transcendental where
  tanh : ℚ → ℚ
  log10 : ℚ → ℚ
  exp : ℚ → ℚ

/-- The trivial instantiation of `Transcendental`, used to run the pipeline on
concrete inputs in witnesses (the claims hold for every instantiation). -/
def T0 : Transcendental := ⟨fun _ => 0, fun _ => 0, fun _ => 0⟩

/-- One row of the `locations` table together with the computed fields, i.e.
the Python place dict of api.py.  `none` models an absent / `None` / `NaN` /
non-coercible value. -/
structure Place where
  rating : Option ℚ := none
  user_ratings_total : Option ℤ := none
  price_level : Option ℤ := none
  types : Option (List String) := none
  vibe_tag : Option String := none
  review_count : Option ℤ := none
  pct_dive_positive : Option ℚ := none
  avg_openai_sentiment : Option ℚ := none
  avg_food_drink_quality : Option ℚ := none
  avg_service_quality : Option ℚ := none
  avg_value_score : Option ℚ := none
  avg_divey_score : Option ℚ := none
  avg_classic_institution : Option ℚ := none
  avg_unpretentious : Option ℚ := none
  avg_authenticity : Option ℚ := none
  avg_would_recommend : Option ℚ := none
  avg_memorable : Option ℚ := none
  /-- `ml_metadata["residual"]` (legacy baseline model key). -/
  ml_residual : Option ℚ := none
  /-- `ml_metadata["residual_deep"]` (deep model key). -/
  ml_residual_deep : Option ℚ := none
  -- computed fields
  dive_score : Option ℚ := none
  dive_grade : Option String := none
  gem_label : Option String := none
  diveiness_0_10 : Option ℚ := none
  character_0_10 : Option ℚ := none
  quality_0_10 : Option ℚ := none
  underrated_0_10 : Option ℚ := none
  blended_0_10 : Option ℚ := none
  custom_score : Option ℚ := none
deriving DecidableEq, Inhabited

/-- Character score (api.py lines 151-193): weighted soul signals when
authenticity/classic/unpretentious are all present, else a logistic mapping of
`pct_dive_positive`; vibe nudges; sparse-data guardrail; clamp and round. -/
def character_0_10 (T : Transcendental) (place : Place) : ℚ :=
  let base :=
    match place.avg_authenticity, place.avg_classic_institution,
          place.avg_unpretentious with
    | some auth, some classic, some unpr =>
        let divey_val := place.avg_divey_score.getD 0
        let memo_val := place.avg_memorable.getD 0.5
        (0.30 * auth + 0.25 * classic + 0.20 * unpr + 0.15 * divey_val
          + 0.10 * memo_val) * 10
    | _, _, _ =>
        let p := clamp (place.pct_dive_positive.getD 0) 0 1
        10 / (1 + T.exp (-16 * (p - 0.28)))
  let base := if place.vibe_tag = some "Beloved_Dive" then base + 0.3
    else if place.vibe_tag = some "Polarizing_Dive" then base + 0.2
    else base
  let gr := place.user_ratings_total.getD 0
  let rc := place.review_count.getD 0
  let base := if gr < 100 ∨ rc < 25 then min base 9.8 else base
  let base := if gr < 50 ∨ rc < 15 then min base 9.4 else base
  round1 (clamp base 0 10)

/-- Quality score (api.py lines 201-234): weighted quality signals when
food and recommend are present, else a rescaling of sentiment; sparse-data
guardrail; clamp and round. -/
def quality_0_10 (place : Place) : ℚ :=
  let base :=
    match place.avg_food_drink_quality, place.avg_would_recommend with
    | some food, some recommend =>
        let svc := place.avg_service_quality.getD 0.5
        let val := place.avg_value_score.getD 0.5
        let memo_val := place.avg_memorable.getD 0.5
        (0.35 * food + 0.30 * recommend + 0.15 * svc + 0.10 * val
          + 0.10 * memo_val) * 10
    | _, _ =>
        let sent := place.avg_openai_sentiment.getD 0
        (sent + 1) * 5
  let gr := place.user_ratings_total.getD 0
  let rc := place.review_count.getD 0
  let base := if gr < 100 ∨ rc < 25 then min base 9.8 else base
  let base := if gr < 50 ∨ rc < 15 then min base 9.4 else base
  round1 (clamp base 0 10)

/-- Underrated score (api.py lines 236-282): gap-based composite when both
would-recommend and sentiment are present; otherwise the ML-residual fallback
(`residual_deep` preferred over `residual`, neutral 5.0 when neither). -/
def underrated_0_10 (T : Transcendental) (scale : ℚ) (place : Place) : ℚ :=
  match place.avg_would_recommend, place.avg_openai_sentiment with
  | some recommend, some sentiment =>
      let rating := place.rating.getD 4
      let review_count := place.review_count.getD 1
      let norm_rating := clamp ((rating - 3.5) / 1.5) 0 1
      let norm_sentiment := (sentiment + 1) / 2
      let rec_gap := recommend - norm_rating
      let sent_gap := norm_sentiment - norm_rating
      let discovery := 1 / (1 + T.log10 (max review_count 1 : ℤ))
      let raw := 0.40 * (rec_gap + 1) / 2 + 0.30 * (sent_gap + 1) / 2
        + 0.30 * discovery
      round1 (clamp (raw * 10) 0 10)
  | _, _ =>
      match place.ml_residual_deep.orElse (fun _ => place.ml_residual) with
      | none => 5
      | some r =>
          let scale := max 0.10 scale
          let u := 5 + 5 * T.tanh (r / scale)
          round1 (clamp u 0 10)

/-- Blended score (api.py lines 284-319): weighted mean of whichever of
quality (0.40), character (0.35), underrated (0.25) are present, `none` when
none are. -/
def blended_0_10 (place : Place) : Option ℚ :=
  let comps : List (ℚ × ℚ) :=
    (match place.quality_0_10 with | some q => [(q, 0.40)] | none => []) ++
    (match place.character_0_10 with | some c => [(c, 0.35)] | none => []) ++
    (match place.underrated_0_10 with | some u => [(u, 0.25)] | none => [])
  if comps = [] then none
  else
    let total_weight := (comps.map Prod.snd).sum
    let weighted_sum := (comps.map (fun sw => sw.1 * sw.2)).sum
    some (round1 (weighted_sum / total_weight))

/-- Dive-score classifier (api.py lines 321-402): rating / review-count /
price / ML-bonus components, clamp to [0,100], coarse grade and label.  Note
the classifier reads `ml_metadata["residual"]` first and falls back to
`residual_deep` (lines 334-336). -/
def calculate_dive_score (place : Place) : Place :=
  let rating := place.rating.getD 0
  let reviews := place.user_ratings_total.getD 0
  let price := place.price_level
  let residual := (place.ml_residual.orElse (fun _ => place.ml_residual_deep)).getD 0
  let rating_score : ℚ :=
    if rating ≥ 4.0 then 30 + (rating - 4.0) * 10
    else if rating ≥ 3.5 then 20 + (rating - 3.5) * 20
    else 10
  let rating_score := min 40 rating_score
  let review_score : ℚ :=
    if reviews < 20 then 10
    else if reviews ≤ 600 then 30
    else if reviews ≤ 2000 then 20
    else 10
  let price_score : ℚ :=
    if price = some 1 then 30
    else if price = some 2 then 20
    else if price = some 3 then 5
    else if price = some 4 then 0
    else 15
  let ml_bonus : ℚ :=
    if residual > 0.3 then 10
    else if residual > 0.1 then 5
    else if residual < -0.3 then -5
    else 0
  let total_score := rating_score + review_score + price_score + ml_bonus
  let total_score := max 0 (min 100 total_score)
  let grade := if total_score ≥ 85 then "A"
    else if total_score ≥ 70 then "B"
    else if total_score ≥ 50 then "C"
    else "D"
  let label := if total_score ≥ 85 then "💎 Certified Gem"
    else if total_score ≥ 70 then "🍺 Solid Spot"
    else if total_score ≥ 50 then "🤷 Decent"
    else "🚫 Avoid"
  { place with
      dive_score := some (round1 total_score)
      dive_grade := some grade
      gem_label := some label }

/-- Per-place enrichment (api.py lines 404-414): dive score, then character
(aliased into `diveiness_0_10`), quality, underrated, and finally blended. -/
def enrich_place (T : Transcendental) (underrated_scale : ℚ) (place : Place) :
    Place :=
  let place := calculate_dive_score place
  let place := { place with character_0_10 := some (character_0_10 T place) }
  let place := { place with diveiness_0_10 := place.character_0_10 }
  let place := { place with quality_0_10 := some (quality_0_10 place) }
  let place := { place with
    underrated_0_10 := some (underrated_0_10 T underrated_scale place) }
  { place with blended_0_10 := blended_0_10 place }

/-- The three score fields that `normalize_to_percentile` is applied to by the
endpoints (api.py lines 490-492, 556-558, 625-627). -/
inductive ScoreField : Type
  | quality
  | character
  | underrated
deriving DecidableEq

/-- Read the score field named `f` from a place (`p.get(field)`). -/
def getF : ScoreField → Place → Option ℚ
  | .quality, p => p.quality_0_10
  | .character, p => p.character_0_10
  | .underrated, p => p.underrated_0_10

/-- Write the score field named `f` on a place (`places[idx][field] = v`). -/
def setF : ScoreField → ℚ → Place → Place
  | .quality, v, p => { p with quality_0_10 := some v }
  | .character, v, p => { p with character_0_10 := some v }
  | .underrated, v, p => { p with underrated_0_10 := some v }

/-- Replace the element at position `i` by `g` applied to it (the in-place
dict mutation `places[idx][field] = ...` on a list element). -/
def updateAt {α : Type} : List α → ℕ → (α → α) → List α
  | [], _, _ => []
  | a :: l, 0, g => g a :: l
  | a :: l, n + 1, g => a :: updateAt l n g

/-- The `(index, value)` pairs of places with a numeric non-NaN value of the
field, indices counted from `i` (api.py lines 138-139: `enumerate` plus the
`isinstance`/`isnan` filter; a non-numeric or NaN value is `none` here). -/
def numericEntriesFrom (f : ScoreField) : ℕ → List Place → List (ℕ × ℚ)
  | _, [] => []
  | i, p :: ps =>
      match getF f p with
      | some v => (i, v) :: numericEntriesFrom f (i + 1) ps
      | none => numericEntriesFrom f (i + 1) ps

/-- All `(index, value)` pairs with a numeric value of field `f`. -/
def numericEntries (f : ScoreField) (places : List Place) : List (ℕ × ℚ) :=
  numericEntriesFrom f 0 places

/-- The normalized score written for `rank` out of `n` values:
`target_min + rank/(n-1) * (target_max - target_min)` rounded to 1 decimal
(api.py lines 147-149). -/
def rankScore (tmin tmax : ℚ) (n : ℕ) (rank : ℕ) : ℚ :=
  round1 (tmin + (rank : ℚ) / ((n : ℚ) - 1) * (tmax - tmin))

/-- The write-back loop of api.py lines 146-149: walk the sorted entries,
assigning the element at original index `e.1` the score of its rank. -/
def writeScores (f : ScoreField) (tmin tmax : ℚ) (n : ℕ) :
    ℕ → List (ℕ × ℚ) → List Place → List Place
  | _, [], acc => acc
  | rank, e :: rest, acc =>
      writeScores f tmin tmax n (rank + 1) rest
        (updateAt acc e.1 (setF f (rankScore tmin tmax n rank)))

/-- The ascending stable sort of the entries by value (api.py line 144:
`values.sort(key=lambda x: x[1])`; Python's sort is stable, as is
`List.insertionSort`). -/
def sortEntries (values : List (ℕ × ℚ)) : List (ℕ × ℚ) :=
  List.insertionSort (fun a b => a.2 ≤ b.2) values

instance : IsTotal (ℕ × ℚ) (fun a b => a.2 ≤ b.2) :=
  ⟨fun a b => le_total a.2 b.2⟩

instance : IsTrans (ℕ × ℚ) (fun a b => a.2 ≤ b.2) :=
  ⟨fun _ _ _ hab hbc => le_trans hab hbc⟩

/-- Cohort percentile normalization (api.py lines 132-149): collect numeric
values of the field, no-op when fewer than 2, else sort ascending and remap
rank `k` of `n` to `target_min + k/(n-1)*(target_max-target_min)`, rounded to
1 decimal and written back in place. -/
def normalize_to_percentile (f : ScoreField) (tmin tmax : ℚ)
    (places : List Place) : List Place :=
  let values := numericEntries f places
  if values.length < 2 then places
  else writeScores f tmin tmax values.length 0 (sortEntries values) places

/-- Linear-interpolation percentile of a pre-sorted list (api.py lines
114-129).  Out-of-range indexing cannot occur for `0 ≤ pct ≤ 100`; the total
Lean model reads `0` there. -/
def percentile_sorted (sorted_vals : List ℚ) (pct : ℚ) : ℚ :=
  if sorted_vals = [] then 0
  else
    let p := clamp pct 0 100 / 100
    if sorted_vals.length = 1 then sorted_vals.headD 0
    else
      let idx := p * ((sorted_vals.length : ℚ) - 1)
      let lo := ⌊idx⌋
      let hi := ⌈idx⌉
      if lo = hi then sorted_vals.getD lo.toNat 0
      else
        let w := idx - (lo : ℚ)
        sorted_vals.getD lo.toNat 0 * (1 - w) + sorted_vals.getD hi.toNat 0 * w

/-- Auto-calibration of the underrated fallback scale (api.py lines 470-484):
p75 of the absolute ML residuals (deep key preferred) when at least 10 are
present, else 0.20; floored at 0.10. -/
def autoScale (results : List Place) : ℚ :=
  let abs_residuals :=
    (results.filterMap
      (fun p => p.ml_residual_deep.orElse (fun _ => p.ml_residual))).map
      (fun r => |r|)
  let sorted := List.insertionSort (fun a b : ℚ => a ≤ b) abs_residuals
  let s := if abs_residuals.length ≥ 10 then percentile_sorted sorted 75
    else 0.20
  max 0.10 s

/-- The enrichment / normalization / blended-recompute sequence shared by all
three ranked-list endpoints (api.py lines 487-496, 553-562, 622-631). -/
def rankedCore (T : Transcendental) (scale : ℚ) (results : List Place) :
    List Place :=
  let enriched := results.map (enrich_place T scale)
  let e := normalize_to_percentile .quality 2 9.5 enriched
  let e := normalize_to_percentile .character 2 9.5 e
  let e := normalize_to_percentile .underrated 2 9.5 e
  e.map (fun place => { place with blended_0_10 := blended_0_10 place })

/-- The sort keys accepted by `/locations` (api.py lines 442-455). -/
inductive SortKey : Type
  | blended | character | diveiness | quality | underrated
  | rating | user_ratings_total | pct_dive_positive | avg_openai_sentiment
deriving DecidableEq

/-- Sort-key extraction `x.get(sort_by) or 0` (api.py line 531): a missing
value (and Python's falsy 0) reads as 0. -/
def sortVal : SortKey → Place → ℚ
  | .blended, p => p.blended_0_10.getD 0
  | .character, p => p.character_0_10.getD 0
  | .diveiness, p => p.diveiness_0_10.getD 0
  | .quality, p => p.quality_0_10.getD 0
  | .underrated, p => p.underrated_0_10.getD 0
  | .rating, p => p.rating.getD 0
  | .user_ratings_total, p => ((p.user_ratings_total.getD 0 : ℤ) : ℚ)
  | .pct_dive_positive, p => p.pct_dive_positive.getD 0
  | .avg_openai_sentiment, p => p.avg_openai_sentiment.getD 0

/-- Python `enriched_results.sort(key=..., reverse=True)`: stable descending
sort by the key. -/
def sortDesc (key : Place → ℚ) (l : List Place) : List Place :=
  List.insertionSort (fun a b => key b ≤ key a) l

/-- `KIND_TYPE_MAP` (api.py lines 506-509). -/
def KIND_TYPE_MAP (k : String) : Option (List String) :=
  if k = "bar" then some ["bar", "night_club"]
  else if k = "restaurant" then
    some ["restaurant", "cafe", "meal_takeaway", "meal_delivery"]
  else none

/-- `has_kind` (api.py lines 511-518). -/
def has_kind (p : Place) (k : String) : Bool :=
  let types := p.types.getD []
  match KIND_TYPE_MAP k with
  | none => false
  | some want => types.any (fun t => t ∈ want)

/-- The in-memory kind filter of api.py lines 520-527. -/
def kindsFilter (kinds : List String) (kinds_mode : String)
    (l : List Place) : List Place :=
  let normalized := (kinds.map (fun k => k.toLower.trim)).filter
    (fun k => (KIND_TYPE_MAP k).isSome)
  if normalized = [] then l
  else if kinds_mode = "all" then
    l.filter (fun p => normalized.all (fun k => has_kind p k))
  else
    l.filter (fun p => normalized.any (fun k => has_kind p k))

/-- The minimum-review-count in-memory filter (api.py lines 499-503, 634-638). -/
def minReviewsFilter (min_reviews : ℤ) (l : List Place) : List Place :=
  if min_reviews > 0 then
    l.filter (fun p => p.user_ratings_total.getD 0 ≥ min_reviews)
  else l

/-- The `/locations` endpoint after the upstream fetch (api.py lines 432-535):
auto-calibrate the underrated scale, enrich, normalize each lens, recompute
blended, filter, sort descending by the sort key, truncate.  `results` is the
candidate set returned by the storage collaborator. -/
def get_locations (T : Transcendental) (results : List Place)
    (min_reviews : ℤ) (kinds : List String) (kinds_mode : String)
    (sort_by : SortKey) (limit : ℕ) : List Place :=
  let e := rankedCore T (autoScale results) results
  let e := minReviewsFilter min_reviews e
  let e := kindsFilter kinds kinds_mode e
  (sortDesc (sortVal sort_by) e).take limit

/-- The `/vibes` endpoint after the upstream fetch (api.py lines 541-564):
enrich with the default underrated scale 0.35, normalize, recompute blended. -/
def get_vibes (T : Transcendental) (results : List Place) : List Place :=
  rankedCore T 0.35 results

/-- The valid custom-lens signal names, i.e. the keys of `SIGNAL_COLUMNS`
(api.py lines 591-601). -/
def signalNames : List String :=
  ["food_drink_quality", "service_quality", "value_score", "divey_score",
   "classic_institution", "unpretentious", "authenticity", "would_recommend",
   "memorable"]

/-- The `SIGNAL_COLUMNS` column lookup composed with the place read
(`place.get(SIGNAL_COLUMNS[signal])`). -/
def getSignal (s : String) (p : Place) : Option ℚ :=
  if s = "food_drink_quality" then p.avg_food_drink_quality
  else if s = "service_quality" then p.avg_service_quality
  else if s = "value_score" then p.avg_value_score
  else if s = "divey_score" then p.avg_divey_score
  else if s = "classic_institution" then p.avg_classic_institution
  else if s = "unpretentious" then p.avg_unpretentious
  else if s = "authenticity" then p.avg_authenticity
  else if s = "would_recommend" then p.avg_would_recommend
  else if s = "memorable" then p.avg_memorable
  else none

/-- Weight validation (api.py lines 604-610): keep entries whose key is a
known signal name and whose value is float-coercible (`none` models a value
`float()` rejects).  The parsed JSON object is a key/value list. -/
def validateWeights (wd : List (String × Option ℚ)) : List (String × ℚ) :=
  wd.filterMap (fun sw =>
    if sw.1 ∈ signalNames then sw.2.map (fun w => (sw.1, w)) else none)

/-- Per-place custom score (api.py lines 641-656): accumulate `val * weight`
over validated signals with a present value and weight > 0; scale the weighted
mean to 0-10 and round, or the neutral 5.0 when nothing contributed. -/
def customScore (valid_weights : List (String × ℚ)) (place : Place) : ℚ :=
  let acc := valid_weights.foldl
    (fun (acc : ℚ × ℚ) (sw : String × ℚ) =>
      match getSignal sw.1 place with
      | some val =>
          if sw.2 > 0 then (acc.1 + val * sw.2, acc.2 + sw.2) else acc
      | none => acc)
    ((0 : ℚ), (0 : ℚ))
  if acc.2 > 0 then round1 (acc.1 / acc.2 * 10) else 5

/-- The `/locations/custom` endpoint (api.py lines 569-663).  `weights` is the
parsed JSON payload, `none` when `json.loads` fails; a 400 is raised before
the storage fetch or any scoring when parsing fails or no valid weights
remain, hence the result is `.error 400` independently of `results`. -/
def get_locations_custom (T : Transcendental)
    (weights : Option (List (String × Option ℚ))) (results : List Place)
    (min_reviews : ℤ) (limit : ℕ) : Except ℕ (List Place) :=
  match weights with
  | none => .error 400
  | some wd =>
    let valid_weights := validateWeights wd
    if valid_weights = [] then .error 400
    else
      let e := rankedCore T 0.35 results
      let e := minReviewsFilter min_reviews e
      let e := e.map (fun place =>
        { place with custom_score := some (customScore valid_weights place) })
      .ok ((sortDesc (fun p => p.custom_score.getD 0) e).take limit)

/-- Real-number transcription of the ML-residual fallback branch of
`underrated_0_10` (api.py lines 256-259), with the genuine `Real.tanh` in
place of the float `math.tanh`:
`round(clamp(5 + 5*tanh(r/max(0.10, scale)), 0, 10), 1)`. -/
noncomputable def underratedFallbackR (r scale : ℝ) : ℝ :=
  let scale := max 0.10 scale
  let u := 5 + 5 * Real.tanh (r / scale)
  round1 (clamp u 0 10)

/-! ### Specification-side definitions (from the spec text, for comparison) -/

/-- Blended-score formula as the spec states it: `0.40*q + 0.35*c + 0.25*u`
rounded to 1 decimal when all three are present; the weighted mean with the
weights renormalized over the present components otherwise; absent when no
component is present. -/
def blendedSpec (q c u : Option ℚ) : Option ℚ :=
  match q, c, u with
  | some q, some c, some u => some (round1 (0.40 * q + 0.35 * c + 0.25 * u))
  | some q, some c, none => some (round1 ((0.40 * q + 0.35 * c) / (0.40 + 0.35)))
  | some q, none, some u => some (round1 ((0.40 * q + 0.25 * u) / (0.40 + 0.25)))
  | none, some c, some u => some (round1 ((0.35 * c + 0.25 * u) / (0.35 + 0.25)))
  | some q, none, none => some (round1 (0.40 * q / 0.40))
  | none, some c, none => some (round1 (0.35 * c / 0.35))
  | none, none, some u => some (round1 (0.25 * u / 0.25))
  | none, none, none => none

/-- Grade step function of the claim: A iff the score is ≥ 85, B iff in
[70, 85), C iff in [50, 70), D otherwise. -/
def gradeStep (t : ℚ) : String :=
  if t ≥ 85 then "A" else if t ≥ 70 then "B" else if t ≥ 50 then "C" else "D"

/-- Label step function with the same boundaries as `gradeStep`. -/
def labelStep (t : ℚ) : String :=
  if t ≥ 85 then "💎 Certified Gem"
  else if t ≥ 70 then "🍺 Solid Spot"
  else if t ≥ 50 then "🤷 Decent"
  else "🚫 Avoid"

/-- The per-record invariant of claim C1: all 0-10 scores in [0, 10], and the
dive score / grade / label produced from one clamped total `t` in [0, 100],
with `dive_score = round1 t` and grade/label the 85/70/50 step functions of
`t`. -/
def ScoreInv (p : Place) : Prop :=
  (∀ v, p.quality_0_10 = some v → 0 ≤ v ∧ v ≤ 10) ∧
  (∀ v, p.character_0_10 = some v → 0 ≤ v ∧ v ≤ 10) ∧
  (∀ v, p.underrated_0_10 = some v → 0 ≤ v ∧ v ≤ 10) ∧
  (∀ v, p.blended_0_10 = some v → 0 ≤ v ∧ v ≤ 10) ∧
  (∃ t : ℚ, 0 ≤ t ∧ t ≤ 100 ∧ p.dive_score = some (round1 t) ∧
    p.dive_grade = some (gradeStep t) ∧ p.gem_label = some (labelStep t))

/-- Custom-lens score as the spec states it: the weighted mean of present
signal values over exactly the validated signals with weight > 0, scaled to
0-10 and rounded; the fixed neutral 5.0 when no signal contributes. -/
def customSpec (valid_weights : List (String × ℚ)) (place : Place) : ℚ :=
  let contrib := valid_weights.filter
    (fun sw => decide (0 < sw.2) && (getSignal sw.1 place).isSome)
  if contrib = [] then 5
  else round1
    ((contrib.map (fun sw => (getSignal sw.1 place).getD 0 * sw.2)).sum /
      (contrib.map Prod.snd).sum * 10)

/-! ### Concrete inputs used by witnesses and counterexamples -/

/-- Cohort of three places whose only normalizable signal is a raw
`quality_0_10` of 5.0 / 7.0 / 9.0. -/
def cohortC7 : List Place :=
  [{ quality_0_10 := some 5 }, { quality_0_10 := some 7 },
   { quality_0_10 := some 9 }]

/-- A place whose classifier total is 84.96: Google rating 3.998, 100
ratings, price tier 2, ML residual 0.2. -/
def pC1 : Place :=
  { rating := some 3.998, user_ratings_total := some 100,
    price_level := some 2, ml_residual := some 0.2 }

/-- The `/locations` output record for the singleton candidate set `[pC1]`
under `T0`. -/
def recC1 : Place :=
  { rating := some 3.998, user_ratings_total := some 100,
    price_level := some 2, ml_residual := some 0.2,
    dive_score := some 85, dive_grade := some "B",
    gem_label := some "🍺 Solid Spot",
    diveiness_0_10 := some 9.4, character_0_10 := some 9.4,
    quality_0_10 := some 5, underrated_0_10 := some 5,
    blended_0_10 := some 6.5 }

/-- A place with every raw signal at 1.0 but only 10 Google ratings and 5
deep reviews (sparse data). -/
def pC4 : Place :=
  { user_ratings_total := some 10, review_count := some 5,
    avg_food_drink_quality := some 1, avg_service_quality := some 1,
    avg_value_score := some 1, avg_divey_score := some 1,
    avg_classic_institution := some 1, avg_unpretentious := some 1,
    avg_authenticity := some 1, avg_would_recommend := some 1,
    avg_memorable := some 1 }

/-- A place carrying both ML residual field names with opposite signs. -/
def pC5 : Place :=
  { rating := some 4, user_ratings_total := some 100,
    price_level := some 2, ml_residual := some 0.5,
    ml_residual_deep := some (-0.5) }

/-- A place with only a zero legacy residual and no rich signals. -/
def pC6 : Place := { ml_residual := some 0 }

/-- A place with no signals and no residuals at all. -/
def pC6b : Place := {}

/-- Two-place cohort whose character raw scores differ (0.5-signals versus
1.0-signals), with enough data volume to dodge the sparse-data caps. -/
def pC10a : Place :=
  { user_ratings_total := some 1000, review_count := some 100,
    avg_divey_score := some 0.5, avg_classic_institution := some 0.5,
    avg_unpretentious := some 0.5, avg_authenticity := some 0.5,
    avg_memorable := some 0.5 }

/-- Companion of `pC10a` with all character signals at 1.0. -/
def pC10b : Place :=
  { user_ratings_total := some 1000, review_count := some 100,
    avg_divey_score := some 1, avg_classic_institution := some 1,
    avg_unpretentious := some 1, avg_authenticity := some 1,
    avg_memorable := some 1 }

/-- A place whose only signal is a food/drink quality of 0.8. -/
def pC9 : Place := { avg_food_drink_quality := some 0.8 }

/-- A custom-weights payload with only unknown signal names or non-coercible
weights. -/
def wdC8 : List (String × Option ℚ) :=
  [("bogus_signal", some 1), ("food_drink_quality", none)]

/-! ### Arithmetic lemmas about rounding and clamping -/

section RoundLemmas

variable {α : Type} [LinearOrderedField α] [FloorRing α]

theorem floor_le_rnearest (x : α) : ⌊x⌋ ≤ rnearest x := by
  unfold rnearest
  split
  · exact le_refl _
  split
  · omega
  split
  · exact le_refl _
  · omega

theorem rnearest_le_floor_add_one (x : α) : rnearest x ≤ ⌊x⌋ + 1 := by
  unfold rnearest
  split
  · omega
  split
  · omega
  split
  · omega
  · omega

theorem rnearest_mono {x y : α} (h : x ≤ y) : rnearest x ≤ rnearest y := by
  rcases lt_or_ge ⌊x⌋ ⌊y⌋ with hf | hf
  · calc rnearest x ≤ ⌊x⌋ + 1 := rnearest_le_floor_add_one x
      _ ≤ ⌊y⌋ := by omega
      _ ≤ rnearest y := floor_le_rnearest y
  · have hf' : ⌊x⌋ = ⌊y⌋ := le_antisymm (Int.floor_mono h) hf
    unfold rnearest
    rw [hf']
    have hxy : x - (⌊y⌋ : α) ≤ y - (⌊y⌋ : α) := by linarith
    split_ifs <;> first | omega | linarith

theorem rnearest_intCast (n : ℤ) : rnearest ((n : α)) = n := by
  unfold rnearest
  rw [Int.floor_intCast]
  have h : (n : α) - (n : α) = 0 := by ring
  rw [h]
  norm_num

theorem round1_eq_of_mul_ten {x : α} {k : ℤ} (h : x * 10 = (k : α)) :
    round1 x = (k : α) / 10 := by
  unfold round1
  rw [h, rnearest_intCast]

theorem round1_decimal (k : ℤ) : round1 ((k : α) / 10) = (k : α) / 10 :=
  round1_eq_of_mul_ten (by field_simp)

theorem round1_mono {x y : α} (h : x ≤ y) : round1 x ≤ round1 y := by
  unfold round1
  have h10 : x * 10 ≤ y * 10 := by linarith
  have := rnearest_mono h10
  have hc : ((rnearest (x * 10) : ℤ) : α) ≤ ((rnearest (y * 10) : ℤ) : α) :=
    Int.cast_le.mpr this
  linarith

theorem round1_le_decimal {x : α} {k : ℤ} (h : x ≤ (k : α) / 10) :
    round1 x ≤ (k : α) / 10 := by
  calc round1 x ≤ round1 ((k : α) / 10) := round1_mono h
    _ = (k : α) / 10 := round1_decimal k

theorem decimal_le_round1 {x : α} {k : ℤ} (h : (k : α) / 10 ≤ x) :
    (k : α) / 10 ≤ round1 x := by
  calc (k : α) / 10 = round1 ((k : α) / 10) := (round1_decimal k).symm
    _ ≤ round1 x := round1_mono h

omit [FloorRing α] in
theorem clamp_lower (x lo hi : α) : lo ≤ clamp x lo hi := le_max_left _ _

omit [FloorRing α] in
theorem clamp_upper (x lo hi : α) (h : lo ≤ hi) : clamp x lo hi ≤ hi :=
  max_le h (min_le_left _ _)

omit [FloorRing α] in
theorem clamp_le_of_le {x c lo hi : α} (hx : x ≤ c) (hlo : lo ≤ c) :
    clamp x lo hi ≤ c :=
  max_le hlo (le_trans (min_le_right _ _) hx)

omit [FloorRing α] in
theorem clamp_eq_of_mem {x lo hi : α} (h1 : lo ≤ x) (h2 : x ≤ hi) :
    clamp x lo hi = x := by
  unfold clamp
  rw [min_eq_right h2, max_eq_right h1]

theorem round1_clamp_mem (x : α) :
    0 ≤ round1 (clamp x 0 10) ∧ round1 (clamp x 0 10) ≤ 10 := by
  constructor
  · have h0 : ((0 : ℤ) : α) / 10 ≤ clamp x 0 10 := by
      simpa using clamp_lower x (0:α) 10
    simpa using decimal_le_round1 h0
  · have h1 : clamp x 0 10 ≤ ((100 : ℤ) : α) / 10 := by
      have := clamp_upper x (0:α) 10 (by norm_num)
      push_cast
      linarith
    have := round1_le_decimal h1
    push_cast at this
    linarith

theorem round1_clamp100_mem (x : α) :
    0 ≤ round1 (clamp x 0 100) ∧ round1 (clamp x 0 100) ≤ 100 := by
  constructor
  · have h0 : ((0 : ℤ) : α) / 10 ≤ clamp x 0 100 := by
      simpa using clamp_lower x (0:α) 100
    simpa using decimal_le_round1 h0
  · have h1 : clamp x 0 100 ≤ ((1000 : ℤ) : α) / 10 := by
      have := clamp_upper x (0:α) 100 (by norm_num)
      push_cast
      linarith
  -- round1 (clamp x 0 100) ≤ 1000/10 = 100
    have := round1_le_decimal h1
    push_cast at this
    linarith

end RoundLemmas

/-! ### Lemmas about the cohort percentile normalizer -/

theorem getF_setF (f : ScoreField) (v : ℚ) (p : Place) :
    getF f (setF f v p) = some v := by
  cases f <;> rfl

/-- Writing one of the three normalized score fields never changes the dive
fields, the alias field, or the blended field. -/
theorem setF_preserves (f : ScoreField) (v : ℚ) (p : Place) :
    (setF f v p).dive_score = p.dive_score ∧
    (setF f v p).dive_grade = p.dive_grade ∧
    (setF f v p).gem_label = p.gem_label ∧
    (setF f v p).diveiness_0_10 = p.diveiness_0_10 ∧
    (setF f v p).blended_0_10 = p.blended_0_10 := by
  cases f <;> exact ⟨rfl, rfl, rfl, rfl, rfl⟩

theorem length_updateAt {β : Type} (l : List β) (i : ℕ) (g : β → β) :
    (updateAt l i g).length = l.length := by
  induction l generalizing i with
  | nil => rfl
  | cons a l ih => cases i with
    | zero => rfl
    | succ n => simpa [updateAt] using ih n

theorem getElem?_updateAt_ne {β : Type} (l : List β) {i j : ℕ} (g : β → β)
    (h : i ≠ j) : (updateAt l i g)[j]? = l[j]? := by
  induction l generalizing i j with
  | nil => rfl
  | cons a l ih =>
    cases i with
    | zero =>
      cases j with
      | zero => exact absurd rfl h
      | succ m => simp [updateAt]
    | succ n =>
      cases j with
      | zero => simp [updateAt]
      | succ m =>
        simp only [updateAt, List.getElem?_cons_succ]
        exact ih (fun he => h (by omega))

theorem getElem?_updateAt_eq {β : Type} (l : List β) (i : ℕ) (g : β → β) :
    (updateAt l i g)[i]? = (l[i]?).map g := by
  induction l generalizing i with
  | nil => rfl
  | cons a l ih =>
    cases i with
    | zero => simp [updateAt]
    | succ n =>
      simp only [updateAt, List.getElem?_cons_succ]
      exact ih n

theorem mem_numericEntriesFrom (f : ScoreField) (ps : List Place) :
    ∀ (i j : ℕ) (v : ℚ),
      ((j, v) ∈ numericEntriesFrom f i ps ↔
        ∃ k p, ps[k]? = some p ∧ getF f p = some v ∧ j = i + k) := by
  induction ps with
  | nil => intro i j v; simp [numericEntriesFrom]
  | cons p ps ih =>
    intro i j v
    unfold numericEntriesFrom
    cases hg : getF f p with
    | some w =>
      simp only [List.mem_cons]
      constructor
      · rintro (he | hm)
        · obtain ⟨hj, hv⟩ := Prod.mk.injEq j v i w ▸ he
          exact ⟨0, p, by simp, by rw [hg, hv], by omega⟩
        · obtain ⟨k, q, hq, hgq, hj⟩ := (ih (i + 1) j v).mp hm
          exact ⟨k + 1, q, by simpa using hq, hgq, by omega⟩
      · rintro ⟨k, q, hq, hgq, hj⟩
        cases k with
        | zero =>
          left
          simp only [List.getElem?_cons_zero, Option.some.injEq] at hq
          subst hq
          rw [hg] at hgq
          cases hgq
          simp at hj
          simp [hj]
        | succ k =>
          right
          exact (ih (i + 1) j v).mpr
            ⟨k, q, by simpa using hq, hgq, by omega⟩
    | none =>
      constructor
      · intro hm
        obtain ⟨k, q, hq, hgq, hj⟩ := (ih (i + 1) j v).mp hm
        exact ⟨k + 1, q, by simpa using hq, hgq, by omega⟩
      · rintro ⟨k, q, hq, hgq, hj⟩
        cases k with
        | zero =>
          simp only [List.getElem?_cons_zero, Option.some.injEq] at hq
          subst hq
          rw [hg] at hgq
          cases hgq
        | succ k =>
          exact (ih (i + 1) j v).mpr ⟨k, q, by simpa using hq, hgq, by omega⟩

theorem mem_numericEntries {f : ScoreField} {places : List Place} {j : ℕ}
    {v : ℚ} :
    (j, v) ∈ numericEntries f places ↔
      ∃ p, places[j]? = some p ∧ getF f p = some v := by
  rw [numericEntries, mem_numericEntriesFrom]
  constructor
  · rintro ⟨k, p, hk, hg, hj⟩
    exact ⟨p, by simpa [hj] using hk, hg⟩
  · rintro ⟨p, hp, hg⟩
    exact ⟨j, p, hp, hg, by omega⟩

theorem pairwise_numericEntriesFrom (f : ScoreField) (ps : List Place) :
    ∀ i, List.Pairwise (fun a b : ℕ × ℚ => a.1 < b.1)
      (numericEntriesFrom f i ps) := by
  induction ps with
  | nil => intro i; simp [numericEntriesFrom]
  | cons p ps ih =>
    intro i
    unfold numericEntriesFrom
    cases hg : getF f p with
    | some w =>
      refine List.Pairwise.cons ?_ (ih (i + 1))
      intro e he
      rcases e with ⟨j, v⟩
      obtain ⟨k, q, _, _, hj⟩ := (mem_numericEntriesFrom f ps (i + 1) j v).mp he
      simp only
      omega
    | none => exact ih (i + 1)

theorem nodup_fst_numericEntries (f : ScoreField) (places : List Place) :
    ((numericEntries f places).map Prod.fst).Nodup := by
  have h := pairwise_numericEntriesFrom f places 0
  rw [numericEntries] at *
  refine (List.pairwise_map.mpr ?_)
  exact h.imp (fun hab => Nat.ne_of_lt hab)

theorem length_writeScores (f : ScoreField) (tmin tmax : ℚ) (n : ℕ) :
    ∀ (rank : ℕ) (entries : List (ℕ × ℚ)) (acc : List Place),
      (writeScores f tmin tmax n rank entries acc).length = acc.length := by
  intro rank entries
  induction entries generalizing rank with
  | nil => intro acc; rfl
  | cons e rest ih =>
    intro acc
    rw [writeScores, ih (rank + 1), length_updateAt]

theorem writeScores_getElem?_notmem (f : ScoreField) (tmin tmax : ℚ) (n : ℕ) :
    ∀ (rank : ℕ) (entries : List (ℕ × ℚ)) (acc : List Place) (i : ℕ),
      i ∉ entries.map Prod.fst →
      (writeScores f tmin tmax n rank entries acc)[i]? = acc[i]? := by
  intro rank entries
  induction entries generalizing rank with
  | nil => intro acc i _; rfl
  | cons e rest ih =>
    intro acc i hi
    simp only [List.map_cons, List.mem_cons] at hi
    push_neg at hi
    rw [writeScores, ih (rank + 1) _ i hi.2,
      getElem?_updateAt_ne _ _ (fun he => hi.1 he.symm)]

theorem writeScores_getElem?_mem (f : ScoreField) (tmin tmax : ℚ) (n : ℕ) :
    ∀ (rank : ℕ) (entries : List (ℕ × ℚ)) (acc : List Place) (k i : ℕ)
      (v : ℚ),
      (entries.map Prod.fst).Nodup →
      entries[k]? = some (i, v) →
      (writeScores f tmin tmax n rank entries acc)[i]? =
        (acc[i]?).map (setF f (rankScore tmin tmax n (rank + k))) := by
  intro rank entries
  induction entries generalizing rank with
  | nil => intro acc k i v _ hk; simp at hk
  | cons e rest ih =>
    intro acc k i v hnd hk
    simp only [List.map_cons, List.nodup_cons] at hnd
    cases k with
    | zero =>
      simp only [List.getElem?_cons_zero, Option.some.injEq] at hk
      subst hk
      rw [writeScores]
      rw [writeScores_getElem?_notmem f tmin tmax n (rank + 1) rest _ i hnd.1,
        getElem?_updateAt_eq]
      simp
    | succ k =>
      simp only [List.getElem?_cons_succ] at hk
      have hi : i ∈ rest.map Prod.fst := by
        have hm : (i, v) ∈ rest := List.mem_iff_getElem?.mpr ⟨k, hk⟩
        exact List.mem_map.mpr ⟨(i, v), hm, rfl⟩
      have hne : e.1 ≠ i := fun he => hnd.1 (he ▸ hi)
      have hadd : rank + 1 + k = rank + (k + 1) := by omega
      rw [writeScores]
      rw [ih (rank + 1) _ k i v hnd.2 hk, getElem?_updateAt_ne _ _ hne, hadd]

theorem sortEntries_perm (l : List (ℕ × ℚ)) : (sortEntries l).Perm l :=
  List.perm_insertionSort _ l

theorem sortEntries_sorted (l : List (ℕ × ℚ)) :
    List.Sorted (fun a b : ℕ × ℚ => a.2 ≤ b.2) (sortEntries l) :=
  List.sorted_insertionSort _ l

theorem nodup_fst_sortEntries (f : ScoreField) (places : List Place) :
    ((sortEntries (numericEntries f places)).map Prod.fst).Nodup :=
  ((sortEntries_perm _).map Prod.fst).nodup_iff.mpr
    (nodup_fst_numericEntries f places)

theorem normalize_noop {f : ScoreField} {tmin tmax : ℚ} {places : List Place}
    (h : (numericEntries f places).length < 2) :
    normalize_to_percentile f tmin tmax places = places := by
  unfold normalize_to_percentile
  rw [if_pos h]

theorem normalize_length (f : ScoreField) (tmin tmax : ℚ)
    (places : List Place) :
    (normalize_to_percentile f tmin tmax places).length = places.length := by
  by_cases h : (numericEntries f places).length < 2
  · rw [normalize_noop h]
  · simp only [normalize_to_percentile, if_neg h]
    rw [length_writeScores]

theorem normalize_untouched {f : ScoreField} {tmin tmax : ℚ}
    {places : List Place} {j : ℕ}
    (h : ∀ p, places[j]? = some p → getF f p = none) :
    (normalize_to_percentile f tmin tmax places)[j]? = places[j]? := by
  by_cases h2 : (numericEntries f places).length < 2
  · rw [normalize_noop h2]
  · simp only [normalize_to_percentile, if_neg h2]
    apply writeScores_getElem?_notmem
    intro hj
    obtain ⟨e, he, hej⟩ := List.mem_map.mp hj
    have hm : e ∈ numericEntries f places := (sortEntries_perm _).mem_iff.mp he
    have hm' : (j, e.2) ∈ numericEntries f places := by
      rcases e with ⟨j', v⟩
      cases hej
      exact hm
    obtain ⟨p, hp, hg⟩ := mem_numericEntries.mp hm'
    rw [h p hp] at hg
    cases hg

theorem normalize_written {f : ScoreField} (tmin tmax : ℚ)
    {places : List Place} {j : ℕ} {p : Place} {v : ℚ}
    (h2 : ¬(numericEntries f places).length < 2)
    (hp : places[j]? = some p) (hv : getF f p = some v) :
    ∃ k, (sortEntries (numericEntries f places))[k]? = some (j, v) ∧
      (normalize_to_percentile f tmin tmax places)[j]? =
        some (setF f
          (rankScore tmin tmax (numericEntries f places).length k) p) := by
  have hm : (j, v) ∈ sortEntries (numericEntries f places) :=
    (sortEntries_perm _).mem_iff.mpr (mem_numericEntries.mpr ⟨p, hp, hv⟩)
  obtain ⟨k, hk⟩ := List.mem_iff_getElem?.mp hm
  refine ⟨k, hk, ?_⟩
  unfold normalize_to_percentile
  rw [if_neg h2]
  rw [writeScores_getElem?_mem f tmin tmax _ 0 _ places k j v
    (nodup_fst_sortEntries f places) hk]
  rw [hp]
  simp

theorem rankScore_mono {tmin tmax : ℚ} {n : ℕ} (h2 : 2 ≤ n)
    (hmm : tmin ≤ tmax) {k k' : ℕ} (hk : k ≤ k') :
    rankScore tmin tmax n k ≤ rankScore tmin tmax n k' := by
  apply round1_mono
  have hn : (0 : ℚ) < (n : ℚ) - 1 := by
    have hn2 : (2 : ℚ) ≤ (n : ℚ) := by exact_mod_cast h2
    linarith
  have hkk : (k : ℚ) ≤ (k' : ℚ) := by exact_mod_cast hk
  have hd : (k : ℚ) / ((n : ℚ) - 1) ≤ (k' : ℚ) / ((n : ℚ) - 1) := by
    have hmul := mul_le_mul_of_nonneg_right hkk (le_of_lt (inv_pos.mpr hn))
    simpa [div_eq_mul_inv] using hmul
  nlinarith [hd, sub_nonneg.mpr hmm]

theorem rankScore_bounds {tmin tmax : ℚ} {n : ℕ} (h2 : 2 ≤ n)
    (hmm : tmin ≤ tmax) {k : ℕ} (hk : k ≤ n - 1) :
    round1 tmin ≤ rankScore tmin tmax n k ∧
      rankScore tmin tmax n k ≤ round1 tmax := by
  have hn : (0 : ℚ) < (n : ℚ) - 1 := by
    have hn2 : (2 : ℚ) ≤ (n : ℚ) := by exact_mod_cast h2
    linarith
  have hk0 : (0 : ℚ) ≤ (k : ℚ) / ((n : ℚ) - 1) :=
    div_nonneg (Nat.cast_nonneg k) (le_of_lt hn)
  have hk1 : (k : ℚ) / ((n : ℚ) - 1) ≤ 1 := by
    rw [div_le_one hn]
    have hc : (k : ℚ) ≤ ((n - 1 : ℕ) : ℚ) := by exact_mod_cast hk
    rwa [Nat.cast_sub (by omega), Nat.cast_one] at hc
  unfold rankScore
  constructor
  · exact round1_mono (by nlinarith [sub_nonneg.mpr hmm])
  · exact round1_mono (by nlinarith [sub_nonneg.mpr hmm])

theorem rankScore_top {tmin tmax : ℚ} {n : ℕ} (h2 : 2 ≤ n) :
    rankScore tmin tmax n (n - 1) = round1 tmax := by
  unfold rankScore
  have hn : ((n - 1 : ℕ) : ℚ) = (n : ℚ) - 1 := by
    rw [Nat.cast_sub (by omega), Nat.cast_one]
  have hne : (n : ℚ) - 1 ≠ 0 := by
    have hn2 : (2 : ℚ) ≤ (n : ℚ) := by exact_mod_cast h2
    linarith
  rw [hn, div_self hne]
  congr 1
  ring

theorem rankScore_bot (tmin tmax : ℚ) (n : ℕ) :
    rankScore tmin tmax n 0 = round1 tmin := by
  unfold rankScore
  rw [Nat.cast_zero, zero_div]
  congr 1
  ring

/-- Pointwise shape of the normalizer's output: each position is either
untouched or overwritten on field `f` with a value between the rounded
targets. -/
theorem normalize_shape (f : ScoreField) (tmin tmax : ℚ)
    (places : List Place) (hmm : tmin ≤ tmax) (j : ℕ) :
    (normalize_to_percentile f tmin tmax places)[j]? = places[j]? ∨
    ∃ p v, places[j]? = some p ∧ round1 tmin ≤ v ∧ v ≤ round1 tmax ∧
      (normalize_to_percentile f tmin tmax places)[j]? = some (setF f v p) := by
  by_cases h2 : (numericEntries f places).length < 2
  · left; rw [normalize_noop h2]
  · cases hp : places[j]? with
    | none =>
      left
      rw [normalize_untouched (fun p h => by rw [hp] at h; cases h), hp]
    | some p =>
      cases hg : getF f p with
      | none =>
        left
        rw [normalize_untouched
          (fun q hq => by rw [hp] at hq; cases hq; exact hg)]
        exact hp
      | some v =>
        right
        obtain ⟨k, hk, hres⟩ := normalize_written tmin tmax h2 hp hg
        have hkn : k < (sortEntries (numericEntries f places)).length :=
          (List.getElem?_eq_some.mp hk).1
        have hlen : (sortEntries (numericEntries f places)).length =
            (numericEntries f places).length := (sortEntries_perm _).length_eq
        have hb := rankScore_bounds (n := (numericEntries f places).length)
          (by omega) hmm (k := k) (by omega)
        exact ⟨p, _, rfl, hb.1, hb.2, hres⟩

/-- In a cohort of `n ≥ 2` numeric values, some place receives exactly the
score of rank `r`, for every `r < n`. -/
theorem normalize_rank_value (f : ScoreField) (tmin tmax : ℚ)
    (places : List Place) (h2 : 2 ≤ (numericEntries f places).length) (r : ℕ)
    (hr : r < (numericEntries f places).length) :
    ∃ (j : ℕ) (pj' : Place),
      (normalize_to_percentile f tmin tmax places)[j]? = some pj' ∧
      getF f pj' = some
        (rankScore tmin tmax (numericEntries f places).length r) := by
  have hlen : (sortEntries (numericEntries f places)).length =
      (numericEntries f places).length := (sortEntries_perm _).length_eq
  cases hsr : (sortEntries (numericEntries f places))[r]? with
  | none =>
    rw [List.getElem?_eq_none_iff] at hsr
    omega
  | some e =>
    rcases e with ⟨j, v⟩
    have hm : (j, v) ∈ sortEntries (numericEntries f places) :=
      List.mem_iff_getElem?.mpr ⟨r, hsr⟩
    obtain ⟨p, hp, hg⟩ :=
      mem_numericEntries.mp ((sortEntries_perm _).mem_iff.mp hm)
    obtain ⟨k, hk, hres⟩ :=
      normalize_written tmin tmax (by omega) hp hg
    have hkl : k < (sortEntries (numericEntries f places)).length :=
      (List.getElem?_eq_some.mp hk).1
    have hkr : k = r := by
      apply @List.getElem?_inj _ k r
        ((sortEntries (numericEntries f places)).map Prod.fst)
        (by simpa using hkl) (nodup_fst_sortEntries f places)
      rw [List.getElem?_map, List.getElem?_map, hk, hsr]
    subst hkr
    exact ⟨j, _, hres, by rw [getF_setF]⟩

/-- Every value of field `f` present after normalization of a cohort with at
least two numeric values lies between the rounded targets. -/
theorem normalize_value_bounds (f : ScoreField) {tmin tmax : ℚ}
    (places : List Place) (hmm : tmin ≤ tmax)
    (h2 : 2 ≤ (numericEntries f places).length) :
    ∀ (j : ℕ) (pj' : Place) (v : ℚ),
      (normalize_to_percentile f tmin tmax places)[j]? = some pj' →
      getF f pj' = some v →
      round1 tmin ≤ v ∧ v ≤ round1 tmax := by
  intro j pj' v hres hgv
  have hj : j < places.length := by
    have hlt := (List.getElem?_eq_some.mp hres).1
    rwa [normalize_length] at hlt
  cases hp : places[j]? with
  | none =>
    rw [List.getElem?_eq_none_iff] at hp
    omega
  | some p =>
    cases hg : getF f p with
    | none =>
      rw [normalize_untouched (fun q hq => by rw [hp] at hq; cases hq; exact hg),
        hp] at hres
      cases hres
      rw [hg] at hgv
      cases hgv
    | some w =>
      obtain ⟨k, hk, hres'⟩ :=
        normalize_written tmin tmax (by omega) hp hg
      rw [hres'] at hres
      cases hres
      rw [getF_setF] at hgv
      cases hgv
      have hkl : k < (sortEntries (numericEntries f places)).length :=
        (List.getElem?_eq_some.mp hk).1
      have hlen : (sortEntries (numericEntries f places)).length =
          (numericEntries f places).length := (sortEntries_perm _).length_eq
      exact rankScore_bounds h2 hmm (by omega)

/-- C2: percentile normalization is rank-preserving (two places with distinct
numeric raw values of the field are never strictly reordered), a no-op on
cohorts with fewer than two numeric values, and for cohorts of two or more it
writes exactly `round1 target_max` at the top, `round1 target_min` at the
bottom, with all written values between the two. -/
theorem C2_normalize_rank_preserving (f : ScoreField) (tmin tmax : ℚ)
    (places : List Place) (hmm : tmin ≤ tmax) :
    ((numericEntries f places).length < 2 →
      normalize_to_percentile f tmin tmax places = places) ∧
    (∀ (i j : ℕ) (pi pj pi' pj' : Place) (a b a' b' : ℚ),
      places[i]? = some pi → places[j]? = some pj →
      getF f pi = some a → getF f pj = some b → a < b →
      (normalize_to_percentile f tmin tmax places)[i]? = some pi' →
      (normalize_to_percentile f tmin tmax places)[j]? = some pj' →
      getF f pi' = some a' → getF f pj' = some b' →
      a' ≤ b') ∧
    (2 ≤ (numericEntries f places).length →
      (∃ (j : ℕ) (pj' : Place),
        (normalize_to_percentile f tmin tmax places)[j]? = some pj' ∧
        getF f pj' = some (round1 tmax)) ∧
      (∃ (j : ℕ) (pj' : Place),
        (normalize_to_percentile f tmin tmax places)[j]? = some pj' ∧
        getF f pj' = some (round1 tmin)) ∧
      (∀ (j : ℕ) (pj' : Place) (v : ℚ),
        (normalize_to_percentile f tmin tmax places)[j]? = some pj' →
        getF f pj' = some v →
        round1 tmin ≤ v ∧ v ≤ round1 tmax)) := by
  refine ⟨fun h => normalize_noop h, ?_, fun h2 => ⟨?_, ?_, ?_⟩⟩
  · intro i j pi pj pi' pj' a b a' b' hpi hpj hga hgb hab hri hrj hga' hgb'
    by_cases h2 : (numericEntries f places).length < 2
    · rw [normalize_noop h2, hpi] at hri
      rw [normalize_noop h2, hpj] at hrj
      cases hri; cases hrj
      rw [hga] at hga'; cases hga'
      rw [hgb] at hgb'; cases hgb'
      exact le_of_lt hab
    · obtain ⟨ki, hki, hresi⟩ :=
        normalize_written tmin tmax h2 hpi hga
      obtain ⟨kj, hkj, hresj⟩ :=
        normalize_written tmin tmax h2 hpj hgb
      rw [hresi] at hri; cases hri
      rw [hresj] at hrj; cases hrj
      rw [getF_setF] at hga'; cases hga'
      rw [getF_setF] at hgb'; cases hgb'
      have hkil := List.getElem?_eq_some.mp hki
      have hkjl := List.getElem?_eq_some.mp hkj
      have hne : ki ≠ kj := by
        intro he
        subst he
        rw [hki] at hkj
        cases hkj
        exact absurd rfl (ne_of_lt hab)
      have hkikj : ki < kj := by
        rcases Nat.lt_or_ge ki kj with h | h
        · exact h
        · exfalso
          have hlt : kj < ki := by omega
          have hrel := (sortEntries_sorted (numericEntries f places)).rel_get_of_lt
            (a := ⟨kj, hkjl.1⟩) (b := ⟨ki, hkil.1⟩) hlt
          rw [List.get_eq_getElem, List.get_eq_getElem, hkil.2, hkjl.2] at hrel
          exact absurd hrel (not_le.mpr hab)
      exact rankScore_mono (by omega) hmm (le_of_lt hkikj)
  · obtain ⟨j, pj', hres, hgv⟩ := normalize_rank_value f tmin tmax places h2
      ((numericEntries f places).length - 1) (by omega)
    exact ⟨j, pj', hres, by rwa [rankScore_top h2] at hgv⟩
  · obtain ⟨j, pj', hres, hgv⟩ := normalize_rank_value f tmin tmax places h2
      0 (by omega)
    exact ⟨j, pj', hres, by rwa [rankScore_bot] at hgv⟩
  · exact normalize_value_bounds f places hmm h2

/-! ### Blended score -/

/-- The blended-score function of the code agrees, case by case over which
sub-scores are present, with the renormalized-weighted-mean formula of the
spec. -/
theorem blended_eq_spec (p : Place) :
    blended_0_10 p =
      blendedSpec p.quality_0_10 p.character_0_10 p.underrated_0_10 := by
  rcases hq : p.quality_0_10 with _ | q <;>
    rcases hc : p.character_0_10 with _ | c <;>
      rcases hu : p.underrated_0_10 with _ | u <;>
        simp only [blended_0_10, blendedSpec, hq, hc, hu, List.nil_append,
          List.append_nil, List.cons_append, List.map_cons, List.map_nil,
          List.sum_cons, List.sum_nil]
  · simp
  · rw [if_neg (by simp)]; congr 2; ring
  · rw [if_neg (by simp)]; congr 2; ring
  · rw [if_neg (by simp)]; congr 2; ring
  · rw [if_neg (by simp)]; congr 2; ring
  · rw [if_neg (by simp)]; congr 2; ring
  · rw [if_neg (by simp)]; congr 2; ring
  · rw [if_neg (by simp)]; congr 2; ring

/-- Whenever all three inputs lie in [0, 10], so does the blended value. -/
theorem blendedSpec_mem {q c u : Option ℚ}
    (hq : ∀ v, q = some v → 0 ≤ v ∧ v ≤ 10)
    (hc : ∀ v, c = some v → 0 ≤ v ∧ v ≤ 10)
    (hu : ∀ v, u = some v → 0 ≤ v ∧ v ≤ 10) :
    ∀ v, blendedSpec q c u = some v → 0 ≤ v ∧ v ≤ 10 := by
  have hb : ∀ x : ℚ, 0 ≤ x → x ≤ 10 → 0 ≤ round1 x ∧ round1 x ≤ 10 := by
    intro x h0 h1
    constructor
    · have := decimal_le_round1 (x := x) (k := 0) (by push_cast; linarith)
      push_cast at this
      linarith
    · have := round1_le_decimal (x := x) (k := 100) (by push_cast; linarith)
      push_cast at this
      linarith
  intro v hv
  rcases q with _ | qv <;> rcases c with _ | cv <;> rcases u with _ | uv <;>
    simp only [blendedSpec, Option.some.injEq] at hv
  · simp at hv
  · obtain ⟨h0, h1⟩ := hu uv rfl
    exact hv ▸ hb _ (by ring_nf; linarith) (by ring_nf; linarith)
  · obtain ⟨h0, h1⟩ := hc cv rfl
    exact hv ▸ hb _ (by ring_nf; linarith) (by ring_nf; linarith)
  · obtain ⟨h0, h1⟩ := hc cv rfl
    obtain ⟨h2, h3⟩ := hu uv rfl
    exact hv ▸ hb _ (by ring_nf; linarith) (by ring_nf; linarith)
  · obtain ⟨h0, h1⟩ := hq qv rfl
    exact hv ▸ hb _ (by ring_nf; linarith) (by ring_nf; linarith)
  · obtain ⟨h0, h1⟩ := hq qv rfl
    obtain ⟨h2, h3⟩ := hu uv rfl
    exact hv ▸ hb _ (by ring_nf; linarith) (by ring_nf; linarith)
  · obtain ⟨h0, h1⟩ := hq qv rfl
    obtain ⟨h2, h3⟩ := hc cv rfl
    exact hv ▸ hb _ (by ring_nf; linarith) (by ring_nf; linarith)
  · obtain ⟨h0, h1⟩ := hq qv rfl
    obtain ⟨h2, h3⟩ := hc cv rfl
    obtain ⟨h4, h5⟩ := hu uv rfl
    exact hv ▸ hb _ (by ring_nf; linarith) (by ring_nf; linarith)

/-! ### Sparse-data guardrails -/

theorem quality_cap94 (p : Place)
    (h : p.user_ratings_total.getD 0 < 50 ∨ p.review_count.getD 0 < 15) :
    quality_0_10 p ≤ 9.4 := by
  simp only [quality_0_10]
  rw [if_pos h, show (9.4 : ℚ) = ((94 : ℤ) : ℚ) / 10 by norm_num]
  apply round1_le_decimal
  apply clamp_le_of_le
  · exact (min_le_right _ _).trans (by norm_num)
  · norm_num

theorem quality_cap98 (p : Place)
    (h : p.user_ratings_total.getD 0 < 100 ∨ p.review_count.getD 0 < 25) :
    quality_0_10 p ≤ 9.8 := by
  simp only [quality_0_10]
  rw [show (9.8 : ℚ) = ((98 : ℤ) : ℚ) / 10 by norm_num]
  by_cases h2 : p.user_ratings_total.getD 0 < 50 ∨ p.review_count.getD 0 < 15
  · rw [if_pos h2]
    apply round1_le_decimal
    apply clamp_le_of_le
    · exact (min_le_right _ _).trans (by norm_num)
    · norm_num
  · rw [if_neg h2, if_pos h]
    apply round1_le_decimal
    apply clamp_le_of_le
    · exact (min_le_right _ _).trans (by norm_num)
    · norm_num

theorem character_cap94 (T : Transcendental) (p : Place)
    (h : p.user_ratings_total.getD 0 < 50 ∨ p.review_count.getD 0 < 15) :
    character_0_10 T p ≤ 9.4 := by
  simp only [character_0_10]
  rw [if_pos h, show (9.4 : ℚ) = ((94 : ℤ) : ℚ) / 10 by norm_num]
  apply round1_le_decimal
  apply clamp_le_of_le
  · exact (min_le_right _ _).trans (by norm_num)
  · norm_num

theorem character_cap98 (T : Transcendental) (p : Place)
    (h : p.user_ratings_total.getD 0 < 100 ∨ p.review_count.getD 0 < 25) :
    character_0_10 T p ≤ 9.8 := by
  simp only [character_0_10]
  rw [show (9.8 : ℚ) = ((98 : ℤ) : ℚ) / 10 by norm_num]
  by_cases h2 : p.user_ratings_total.getD 0 < 50 ∨ p.review_count.getD 0 < 15
  · rw [if_pos h2]
    apply round1_le_decimal
    apply clamp_le_of_le
    · exact (min_le_right _ _).trans (by norm_num)
    · norm_num
  · rw [if_neg h2, if_pos h]
    apply round1_le_decimal
    apply clamp_le_of_le
    · exact (min_le_right _ _).trans (by norm_num)
    · norm_num

/-- C4: the sparse-data guardrail caps the reported quality and character
sub-scores (as computed by the calculators, before cohort normalization) at
9.8 when `user_ratings_total < 100` or `review_count < 25`, at 9.4 when
`user_ratings_total < 50` or `review_count < 15`, and in particular a place
with exactly 10 Google ratings and 5 deep reviews can never report either
score above 9.4, regardless of its raw signal values. -/
theorem C4_sparse_guardrail (T : Transcendental) (p : Place) :
    ((p.user_ratings_total.getD 0 < 100 ∨ p.review_count.getD 0 < 25) →
      quality_0_10 p ≤ 9.8 ∧ character_0_10 T p ≤ 9.8) ∧
    ((p.user_ratings_total.getD 0 < 50 ∨ p.review_count.getD 0 < 15) →
      quality_0_10 p ≤ 9.4 ∧ character_0_10 T p ≤ 9.4) ∧
    (p.user_ratings_total = some 10 → p.review_count = some 5 →
      quality_0_10 p ≤ 9.4 ∧ character_0_10 T p ≤ 9.4) := by
  refine ⟨fun h => ⟨quality_cap98 p h, character_cap98 T p h⟩,
    fun h => ⟨quality_cap94 p h, character_cap94 T p h⟩, fun hu hr => ?_⟩
  have h : p.user_ratings_total.getD 0 < 50 ∨ p.review_count.getD 0 < 15 := by
    rw [hu]
    norm_num
  exact ⟨quality_cap94 p h, character_cap94 T p h⟩

/-- Witness for C4: the all-ones-signal sparse place `pC4` satisfies the
hypotheses and both its reported sub-scores are capped at 9.4. -/
theorem C4_witness :
    pC4.user_ratings_total = some 10 ∧ pC4.review_count = some 5 ∧
    quality_0_10 pC4 ≤ 9.4 ∧ character_0_10 T0 pC4 ≤ 9.4 :=
  ⟨rfl, rfl, ((C4_sparse_guardrail T0 pC4).2.2 rfl rfl).1,
    ((C4_sparse_guardrail T0 pC4).2.2 rfl rfl).2⟩

/-! ### Custom lens -/

/-- C8: the custom-lens endpoint rejects malformed input with a client error
400 before any fetch or scoring: an unparseable weights payload, and a
payload all of whose entries have an unknown signal name or a non-coercible
weight, both yield `.error 400` whatever the candidate set holds. -/
theorem C8_custom_rejects_invalid (T : Transcendental) (results : List Place)
    (min_reviews : ℤ) (limit : ℕ) :
    (get_locations_custom T none results min_reviews limit = .error 400) ∧
    (∀ wd : List (String × Option ℚ),
      (∀ e ∈ wd, e.1 ∉ signalNames ∨ e.2 = none) →
      get_locations_custom T (some wd) results min_reviews limit =
        .error 400) := by
  refine ⟨rfl, fun wd h => ?_⟩
  have hval : validateWeights wd = [] := by
    rw [validateWeights, List.filterMap_eq_nil_iff]
    intro e he
    rcases h e he with hn | hn
    · rw [if_neg hn]
    · rw [hn]
      split <;> rfl
  simp only [get_locations_custom, hval]
  rfl

/-- Witness for C8: the payload `wdC8` (one unknown name, one non-coercible
weight) is rejected with 400 for an arbitrary candidate set. -/
theorem C8_witness :
    get_locations_custom T0 (some wdC8) [pC9] 0 120 = .error 400 ∧
    get_locations_custom T0 none [pC9] 0 120 = .error 400 :=
  ⟨(C8_custom_rejects_invalid T0 [pC9] 0 120).2 wdC8
      (by intro e he; fin_cases he <;> simp [signalNames]),
    (C8_custom_rejects_invalid T0 [pC9] 0 120).1⟩

/-- The accumulator loop of the custom score equals filtered sums. -/
theorem customScore_foldl (place : Place) (l : List (String × ℚ)) :
    ∀ a b : ℚ,
      (List.foldl
        (fun (acc : ℚ × ℚ) (sw : String × ℚ) =>
          match getSignal sw.1 place with
          | some val =>
              if sw.2 > 0 then (acc.1 + val * sw.2, acc.2 + sw.2) else acc
          | none => acc)
        (a, b) l) =
      (a + ((l.filter
          (fun sw => decide (0 < sw.2) && (getSignal sw.1 place).isSome)).map
          (fun sw => (getSignal sw.1 place).getD 0 * sw.2)).sum,
       b + ((l.filter
          (fun sw => decide (0 < sw.2) && (getSignal sw.1 place).isSome)).map
          Prod.snd).sum) := by
  induction l with
  | nil => intro a b; simp
  | cons e rest ih =>
    intro a b
    rw [List.foldl_cons, List.filter_cons]
    cases hg : getSignal e.1 place with
    | none =>
      simp only [hg, Option.isSome_none, Bool.and_false, ite_false,
        Bool.false_eq_true]
      exact ih a b
    | some v =>
      by_cases hw : e.2 > 0
      · have hpred : (decide (0 < e.2) && (some v).isSome) = true := by
          simp [hw]
        simp only [hg]
        rw [if_pos hw, ih, if_pos hpred]
        simp only [List.map_cons, List.sum_cons, hg, Option.getD_some]
        rw [Prod.mk.injEq]
        exact ⟨by ring, by ring⟩
      · have hpred : (decide (0 < e.2) && (getSignal e.1 place).isSome)
            = false := by
          simp [hw]
        simp only [hg, hw, if_false, hpred, ite_false]
        exact ih a b

/-- A nonempty list of pairs with positive second components has a positive
sum of second components. -/
theorem sum_snd_pos (c : List (String × ℚ)) (hpos : ∀ e ∈ c, 0 < e.2)
    (hne : c ≠ []) : 0 < (c.map Prod.snd).sum := by
  rcases c with _ | ⟨e, rest⟩
  · exact absurd rfl hne
  · simp only [List.map_cons, List.sum_cons]
    have he : 0 < e.2 := hpos e (by simp)
    have hrest : 0 ≤ (rest.map Prod.snd).sum := by
      apply List.sum_nonneg
      intro x hx
      obtain ⟨f, hf, hfx⟩ := List.mem_map.mp hx
      have hf2 := hpos f (by simp [hf])
      rw [← hfx]
      linarith
    linarith

/-- Entries kept by the contribution filter all have positive weight, so a
nonempty contribution list has a positive weight sum. -/
theorem contrib_sum_pos (place : Place) (l : List (String × ℚ))
    (hne : (l.filter
      (fun sw => decide (0 < sw.2) && (getSignal sw.1 place).isSome)) ≠ []) :
    0 < ((l.filter
      (fun sw => decide (0 < sw.2) && (getSignal sw.1 place).isSome)).map
      Prod.snd).sum := by
  apply sum_snd_pos _ _ hne
  intro e he
  have hmf := List.of_mem_filter he
  simp only [Bool.and_eq_true, decide_eq_true_eq] at hmf
  exact hmf.1

/-- The per-place custom score of the code coincides with the spec-side
weighted-mean-over-contributing-signals formula. -/
theorem customScore_eq_spec (l : List (String × ℚ)) (p : Place) :
    customScore l p = customSpec l p := by
  simp only [customScore, customSpec]
  rw [customScore_foldl p l 0 0]
  by_cases hce :
      (l.filter (fun sw => decide (0 < sw.2) && (getSignal sw.1 p).isSome))
        = []
  · rw [hce]
    simp
  · have hpos := contrib_sum_pos p l hce
    rw [if_pos (by simpa using hpos), if_neg hce]
    congr 1
    simp

/-- C9: for every place, `custom_score` is the weighted mean of present
signal values over exactly the validated signals with weight > 0, scaled to
0-10 and rounded to 1 decimal, with the fixed neutral 5.0 when no signal
contributes; in particular the weight map `{food_drink_quality: 1.0}` on a
place with `avg_food_drink_quality = 0.8` yields 8.0. -/
theorem C9_custom_score :
    (∀ (valid_weights : List (String × ℚ)) (place : Place),
      customScore valid_weights place = customSpec valid_weights place) ∧
    customScore [("food_drink_quality", 1)] pC9 = 8 ∧
    customScore [("food_drink_quality", 1)] { pC9 with
      avg_food_drink_quality := none } = 5 := by
  refine ⟨fun l p => customScore_eq_spec l p, ?_, ?_⟩
  · have h8 : round1 ((8 : ℚ)) = 8 := by
      rw [show (8 : ℚ) = ((8 : ℤ) : ℚ) by norm_num]
      rw [round1_eq_of_mul_ten (k := 80) (by push_cast; ring)]
      norm_num
    simp only [customScore, List.foldl_cons, List.foldl_nil, getSignal, pC9]
    norm_num [h8]
  · simp only [customScore, List.foldl_cons, List.foldl_nil, getSignal]
    norm_num

/-! ### Residual field-name precedence -/

/-- C5 (amended): the Underrated fallback reads `residual_deep` first (its
result depends only on `residual_deep` when that key is present), while the
legacy dive-score classifier reads `residual` first (its output ignores
`residual_deep` whenever `residual` is present). -/
theorem C5_residual_precedence (p : Place) :
    (∀ (T : Transcendental) (scale d : ℚ),
      (p.avg_would_recommend = none ∨ p.avg_openai_sentiment = none) →
      p.ml_residual_deep = some d →
      underrated_0_10 T scale p =
        round1 (clamp (5 + 5 * T.tanh (d / max 0.10 scale)) 0 10)) ∧
    (∀ r : ℚ, p.ml_residual = some r →
      (calculate_dive_score p).dive_score =
        (calculate_dive_score { p with ml_residual_deep := none }).dive_score ∧
      (calculate_dive_score p).dive_grade =
        (calculate_dive_score { p with ml_residual_deep := none }).dive_grade ∧
      (calculate_dive_score p).gem_label =
        (calculate_dive_score { p with ml_residual_deep := none }).gem_label) := by
  constructor
  · intro T scale d hsig hd
    have horelse : ∀ f : Unit → Option ℚ, (some d).orElse f = some d :=
      fun _ => rfl
    rcases hr : p.avg_would_recommend with _ | rec <;>
      rcases hs : p.avg_openai_sentiment with _ | sent
    · simp only [underrated_0_10, hr, hs, hd, horelse]
    · simp only [underrated_0_10, hr, hs, hd, horelse]
    · simp only [underrated_0_10, hr, hs, hd, horelse]
    · rcases hsig with h | h
      · rw [hr] at h; cases h
      · rw [hs] at h; cases h
  · intro r hr
    refine ⟨?_, ?_, ?_⟩ <;> simp [calculate_dive_score, hr]

/-- Counterexample to C5 as stated: on a place carrying `residual = 0.5` and
`residual_deep = -0.5`, the classifier scores 90 (the +10 bonus of the old
key), while deleting the old key drops the score to 75 — so the classifier
does not give `residual_deep` precedence. -/
theorem C5_counterexample :
    (calculate_dive_score pC5).dive_score = some 90 ∧
    (calculate_dive_score { pC5 with ml_residual := none }).dive_score =
      some 75 ∧
    (calculate_dive_score pC5).dive_score ≠
      (calculate_dive_score { pC5 with ml_residual := none }).dive_score := by
  refine ⟨?_, ?_, ?_⟩ <;>
    norm_num [calculate_dive_score, pC5, min_def, max_def, round1, rnearest]

/-! ### Underrated fallback and the residual-to-score mapping -/

theorem tanh_35_bounds : 0.99 < Real.tanh 3.5 ∧ Real.tanh 3.5 < 1 := by
  have hE : (17 : ℝ) ≤ Real.exp 3.5 := by
    have h1 : (1.5 : ℝ) ≤ Real.exp 0.5 := by
      have h := Real.add_one_le_exp (0.5 : ℝ)
      linarith
    have h2 : Real.exp 3.5 = Real.exp 0.5 ^ (7 : ℕ) := by
      rw [← Real.exp_nat_mul]
      norm_num
    rw [h2]
    calc (17 : ℝ) ≤ 1.5 ^ (7 : ℕ) := by norm_num
      _ ≤ Real.exp 0.5 ^ (7 : ℕ) := by
          apply pow_le_pow_left₀ (by norm_num) h1
  have hEpos : (0 : ℝ) < Real.exp 3.5 := Real.exp_pos _
  have hipos : (0 : ℝ) < (Real.exp 3.5)⁻¹ := inv_pos.mpr hEpos
  have hile : (Real.exp 3.5)⁻¹ ≤ 17⁻¹ := by
    apply inv_anti₀ (by norm_num) hE
  have hden : (0 : ℝ) < Real.exp 3.5 + (Real.exp 3.5)⁻¹ := by positivity
  have htanh : Real.tanh 3.5 =
      (Real.exp 3.5 - (Real.exp 3.5)⁻¹) /
        (Real.exp 3.5 + (Real.exp 3.5)⁻¹) := by
    rw [Real.tanh_eq_sinh_div_cosh, Real.sinh_eq, Real.cosh_eq, Real.exp_neg]
    field_simp
  constructor
  · rw [htanh, lt_div_iff₀ hden]
    nlinarith
  · rw [htanh, div_lt_one hden]
    linarith

/-- The value of the real-number residual fallback at residual 0.35 and
scale 0.10: `5 + 5*tanh(3.5) ≈ 9.99`, which rounds to 10.0. -/
theorem underratedFallbackR_eval : underratedFallbackR 0.35 0.10 = 10 := by
  obtain ⟨htl, htu⟩ := tanh_35_bounds
  have harg : (0.35 : ℝ) / max 0.10 0.10 = 3.5 := by norm_num
  have hu1 : (9.95 : ℝ) < 5 + 5 * Real.tanh 3.5 := by linarith
  have hu2 : (5 : ℝ) + 5 * Real.tanh 3.5 < 10 := by linarith
  simp only [underratedFallbackR, harg]
  rw [clamp_eq_of_mem (by linarith) (by linarith)]
  have hfloor : ⌊(5 + 5 * Real.tanh 3.5) * 10⌋ = 99 := by
    rw [Int.floor_eq_iff]
    constructor <;> push_cast <;> nlinarith
  unfold round1 rnearest
  rw [hfloor]
  rw [if_neg (by push_cast; nlinarith), if_pos (by push_cast; nlinarith)]
  norm_num

/-- C6 (amended): in the Underrated fallback (would-recommend or sentiment
missing), no residual under either name gives the fixed neutral 5.0; a
residual of exactly 0 gives exactly 5.0 for every caller-supplied scale (the
effective scale being floored at 0.10); and at scale 0.10 with residual 0.35
the result is 10.0, since 5 + 5*tanh(3.5) ≈ 9.99 clamps and rounds to 10.0
(not ≈ 9.79 as the claim put it). -/
theorem C6_underrated_fallback (T : Transcendental) (scale : ℚ) (p : Place)
    (hsig : p.avg_would_recommend = none ∨ p.avg_openai_sentiment = none)
    (htanh : T.tanh 0 = 0) :
    (p.ml_residual_deep.orElse (fun _ => p.ml_residual) = none →
      underrated_0_10 T scale p = 5) ∧
    (p.ml_residual_deep.orElse (fun _ => p.ml_residual) = some 0 →
      underrated_0_10 T scale p = 5) ∧
    underratedFallbackR 0.35 0.10 = 10 := by
  have h5 : round1 ((5 : ℚ)) = 5 := by
    rw [show (5 : ℚ) = ((5 : ℤ) : ℚ) by norm_num]
    rw [round1_eq_of_mul_ten (k := 50) (by push_cast; ring)]
    norm_num
  refine ⟨fun hres => ?_, fun hres => ?_, underratedFallbackR_eval⟩ <;>
  · rcases hr : p.avg_would_recommend with _ | rec <;>
      rcases hs : p.avg_openai_sentiment with _ | sent
    case some.some =>
      rcases hsig with h | h
      · rw [hr] at h; cases h
      · rw [hs] at h; cases h
    all_goals
      simp only [underrated_0_10, hr, hs, hres, zero_div, htanh, mul_zero,
        add_zero]
    all_goals
      rw [clamp_eq_of_mem (by norm_num) (by norm_num), h5]

/-- Counterexample to C6 as stated: the fallback at scale 0.10 and residual
0.35 returns 10.0, not approximately 9.79. -/
theorem C6_counterexample :
    underratedFallbackR 0.35 0.10 = 10 ∧
    ¬|underratedFallbackR 0.35 0.10 - 9.79| ≤ 0.05 := by
  refine ⟨underratedFallbackR_eval, ?_⟩
  rw [underratedFallbackR_eval,
    show (10 : ℝ) - 9.79 = 0.21 by norm_num, abs_of_pos (by norm_num)]
  norm_num

/-- Witness for C6: a place with a zero legacy residual maps to 5.0, and one
with no residual at all also maps to the neutral 5.0. -/
theorem C6_witness :
    underrated_0_10 T0 0.35 pC6 = 5 ∧ underrated_0_10 T0 0.35 pC6b = 5 :=
  ⟨(C6_underrated_fallback T0 0.35 pC6 (Or.inl rfl) rfl).2.1 rfl,
   (C6_underrated_fallback T0 0.35 pC6b (Or.inl rfl) rfl).1 rfl⟩

/-! ### Pipeline membership and invariants -/

theorem normalize_pointwise (f : ScoreField) (tmin tmax : ℚ)
    (places : List Place) (j : ℕ) :
    (normalize_to_percentile f tmin tmax places)[j]? = places[j]? ∨
    ∃ p v, places[j]? = some p ∧
      (normalize_to_percentile f tmin tmax places)[j]? =
        some (setF f v p) := by
  by_cases h2 : (numericEntries f places).length < 2
  · left; rw [normalize_noop h2]
  · cases hp : places[j]? with
    | none =>
      left
      rw [normalize_untouched (fun p h => by rw [hp] at h; cases h), hp]
    | some p =>
      cases hg : getF f p with
      | none =>
        left
        rw [normalize_untouched
          (fun q hq => by rw [hp] at hq; cases hq; exact hg)]
        exact hp
      | some v =>
        right
        obtain ⟨k, _, hres⟩ := normalize_written tmin tmax h2 hp hg
        exact ⟨p, _, rfl, hres⟩

theorem mem_minReviewsFilter {mr : ℤ} {l : List Place} {x : Place}
    (h : x ∈ minReviewsFilter mr l) : x ∈ l := by
  unfold minReviewsFilter at h
  split at h
  · exact List.mem_of_mem_filter h
  · exact h

theorem mem_kindsFilter {kinds : List String} {mode : String} {l : List Place}
    {x : Place} (h : x ∈ kindsFilter kinds mode l) : x ∈ l := by
  simp only [kindsFilter] at h
  split at h
  · exact h
  · split at h
    · exact List.mem_of_mem_filter h
    · exact List.mem_of_mem_filter h

theorem mem_sortDesc {key : Place → ℚ} {l : List Place} {x : Place} :
    x ∈ sortDesc key l ↔ x ∈ l :=
  (List.perm_insertionSort _ l).mem_iff

theorem mem_get_locations {T : Transcendental} {results : List Place}
    {mr : ℤ} {kinds : List String} {mode : String} {sk : SortKey} {lim : ℕ}
    {rec : Place} (h : rec ∈ get_locations T results mr kinds mode sk lim) :
    rec ∈ rankedCore T (autoScale results) results := by
  simp only [get_locations] at h
  exact mem_minReviewsFilter
    (mem_kindsFilter (mem_sortDesc.mp (List.take_subset _ _ h)))

theorem mem_rankedCore {T : Transcendental} {scale : ℚ}
    {results : List Place} {rec : Place}
    (h : rec ∈ rankedCore T scale results) :
    ∃ q, q ∈ normalize_to_percentile .underrated 2 9.5
        (normalize_to_percentile .character 2 9.5
          (normalize_to_percentile .quality 2 9.5
            (results.map (enrich_place T scale)))) ∧
      rec = { q with blended_0_10 := blended_0_10 q } := by
  simp only [rankedCore] at h
  obtain ⟨q, hq, hrec⟩ := List.mem_map.mp h
  exact ⟨q, hq, hrec.symm⟩

theorem quality_mem (p : Place) :
    0 ≤ quality_0_10 p ∧ quality_0_10 p ≤ 10 := by
  simp only [quality_0_10]
  exact round1_clamp_mem _

theorem character_mem (T : Transcendental) (p : Place) :
    0 ≤ character_0_10 T p ∧ character_0_10 T p ≤ 10 := by
  simp only [character_0_10]
  exact round1_clamp_mem _

theorem underrated_mem (T : Transcendental) (scale : ℚ) (p : Place) :
    0 ≤ underrated_0_10 T scale p ∧ underrated_0_10 T scale p ≤ 10 := by
  rcases hr : p.avg_would_recommend with _ | rec <;>
    rcases hs : p.avg_openai_sentiment with _ | sent <;>
      simp only [underrated_0_10, hr, hs]
  case some.some => exact round1_clamp_mem _
  all_goals
    rcases horel : p.ml_residual_deep.orElse (fun _ => p.ml_residual)
      with _ | r <;> simp only [horel]
  all_goals first
    | exact round1_clamp_mem _
    | norm_num

theorem calculate_dive_shape (p : Place) :
    ∃ t : ℚ, 0 ≤ t ∧ t ≤ 100 ∧
      (calculate_dive_score p).dive_score = some (round1 t) ∧
      (calculate_dive_score p).dive_grade = some (gradeStep t) ∧
      (calculate_dive_score p).gem_label = some (labelStep t) := by
  simp only [calculate_dive_score]
  refine ⟨_, le_max_left _ _, max_le (by norm_num) (min_le_left _ _),
    rfl, rfl, rfl⟩

/-- The enrichment step establishes the per-record invariant. -/
theorem enrich_inv (T : Transcendental) (scale : ℚ) (p : Place) :
    ScoreInv (enrich_place T scale p) := by
  obtain ⟨t, ht0, ht1, hds, hdg, hdl⟩ := calculate_dive_shape p
  refine ⟨?_, ?_, ?_, ?_, ⟨t, ht0, ht1, ?_, ?_, ?_⟩⟩
  · intro v hv
    simp only [enrich_place] at hv
    cases hv
    exact quality_mem _
  · intro v hv
    simp only [enrich_place] at hv
    cases hv
    exact character_mem _ _
  · intro v hv
    simp only [enrich_place] at hv
    cases hv
    exact underrated_mem _ _ _
  · intro v hv
    have hb : (enrich_place T scale p).blended_0_10 =
        blendedSpec (enrich_place T scale p).quality_0_10
          (enrich_place T scale p).character_0_10
          (enrich_place T scale p).underrated_0_10 := by
      simp only [enrich_place]
      exact blended_eq_spec _
    rw [hb] at hv
    refine blendedSpec_mem ?_ ?_ ?_ v hv
    · intro w hw
      simp only [enrich_place] at hw
      cases hw
      exact quality_mem _
    · intro w hw
      simp only [enrich_place] at hw
      cases hw
      exact character_mem _ _
    · intro w hw
      simp only [enrich_place] at hw
      cases hw
      exact underrated_mem _ _ _
  · simp only [enrich_place]
    simpa using hds
  · simp only [enrich_place]
    simpa using hdg
  · simp only [enrich_place]
    simpa using hdl

/-- Setting one of the three normalized fields to a value in [0, 10]
preserves the invariant. -/
theorem setF_inv {p : Place} (f : ScoreField) {v : ℚ} (h0 : 0 ≤ v)
    (h1 : v ≤ 10) (hp : ScoreInv p) : ScoreInv (setF f v p) := by
  obtain ⟨hq, hc, hu, hb, hd⟩ := hp
  cases f
  · exact ⟨fun w hw => by cases hw; exact ⟨h0, h1⟩, hc, hu, hb, hd⟩
  · exact ⟨hq, fun w hw => by cases hw; exact ⟨h0, h1⟩, hu, hb, hd⟩
  · exact ⟨hq, hc, fun w hw => by cases hw; exact ⟨h0, h1⟩, hb, hd⟩

/-- Normalization with the default targets preserves the invariant on every
member. -/
theorem normalize_inv {f : ScoreField} {places : List Place}
    (h : ∀ x ∈ places, ScoreInv x) :
    ∀ x ∈ normalize_to_percentile f 2 9.5 places, ScoreInv x := by
  have h2 : round1 ((2 : ℚ)) = 2 := by norm_num [round1, rnearest]
  have h95 : round1 ((9.5 : ℚ)) = 9.5 := by norm_num [round1, rnearest]
  intro x hx
  obtain ⟨j, hj⟩ := List.mem_iff_getElem?.mp hx
  rcases normalize_shape f 2 9.5 places (by norm_num) j
    with hcase | ⟨p, v, hp, hv1, hv2, hres⟩
  · rw [hcase] at hj
    exact h x (List.mem_iff_getElem?.mpr ⟨j, hj⟩)
  · rw [hres] at hj
    cases hj
    rw [h2] at hv1
    rw [h95] at hv2
    exact setF_inv f (by linarith) (by linarith)
      (h p (List.mem_iff_getElem?.mpr ⟨j, hp⟩))

/-- Every record in the shared ranked pipeline satisfies the invariant, and
its blended score is the spec formula of its (final, normalized) sub-scores. -/
theorem rankedCore_inv (T : Transcendental) (scale : ℚ)
    (results : List Place) :
    ∀ rec ∈ rankedCore T scale results, ScoreInv rec ∧
      rec.blended_0_10 = blendedSpec rec.quality_0_10 rec.character_0_10
        rec.underrated_0_10 := by
  intro rec hrec
  obtain ⟨q, hq, hrecq⟩ := mem_rankedCore hrec
  have henr : ∀ x ∈ results.map (enrich_place T scale), ScoreInv x := by
    intro x hx
    obtain ⟨y, _, hy⟩ := List.mem_map.mp hx
    rw [← hy]
    exact enrich_inv T scale y
  have hinv : ScoreInv q :=
    normalize_inv (normalize_inv (normalize_inv henr)) q hq
  obtain ⟨hqv, hcv, huv, hbv, hdv⟩ := hinv
  subst hrecq
  constructor
  · refine ⟨hqv, hcv, huv, ?_, hdv⟩
    intro v hv
    simp only at hv
    rw [blended_eq_spec q] at hv
    exact blendedSpec_mem hqv hcv huv v hv
  · simp only
    exact blended_eq_spec q

/-- C1 (amended): every record returned by the ranked-list pipeline has
`quality_0_10`, `character_0_10`, `underrated_0_10` and `blended_0_10` (when
present) in [0, 10]; and its `dive_score`, `dive_grade` and `gem_label` come
from one clamped total `t ∈ [0, 100]` with `dive_score = round1 t` and
grade/label the non-overlapping 85/70/50 step function of `t` (inclusive on
the high side).  Because `dive_score` is the rounded total, the step-function
boundaries apply to the pre-rounding total, not verbatim to `dive_score`. -/
theorem C1_score_ranges_and_grade (T : Transcendental) (results : List Place)
    (min_reviews : ℤ) (kinds : List String) (kinds_mode : String)
    (sort_by : SortKey) (limit : ℕ) :
    ∀ rec ∈ get_locations T results min_reviews kinds kinds_mode sort_by
      limit, ScoreInv rec :=
  fun _ h => (rankedCore_inv T _ results _ (mem_get_locations h)).1

/-- C3: the blended score always equals the spec formula (0.40/0.35/0.25
weighted mean, renormalized over present components, rounded to 1 decimal,
absent when no component is present), and in every ranked-list request the
returned record's `blended_0_10` is that formula applied to the record's
final — i.e. cohort-normalized — `quality_0_10`, `character_0_10`,
`underrated_0_10`. -/
theorem C3_blended_after_normalization :
    (∀ p : Place, blended_0_10 p =
      blendedSpec p.quality_0_10 p.character_0_10 p.underrated_0_10) ∧
    (∀ (T : Transcendental) (results : List Place) (min_reviews : ℤ)
      (kinds : List String) (kinds_mode : String) (sort_by : SortKey)
      (limit : ℕ),
      ∀ rec ∈ get_locations T results min_reviews kinds kinds_mode sort_by
        limit,
        rec.blended_0_10 = blendedSpec rec.quality_0_10 rec.character_0_10
          rec.underrated_0_10) :=
  ⟨blended_eq_spec,
   fun T results _ _ _ _ _ _ h =>
     (rankedCore_inv T _ results _ (mem_get_locations h)).2⟩

/-- C10 (amended): `diveiness_0_10` equals `character_0_10` as set by
`enrich_place` (the pre-normalization value), and the cohort normalizer never
touches `diveiness_0_10`; hence returned records keep the pre-normalization
character value in `diveiness_0_10`, which can differ from the final
`character_0_10`. -/
theorem C10_diveiness_alias :
    (∀ (T : Transcendental) (scale : ℚ) (p : Place),
      (enrich_place T scale p).diveiness_0_10 =
        (enrich_place T scale p).character_0_10) ∧
    (∀ (f : ScoreField) (tmin tmax : ℚ) (places : List Place) (j : ℕ),
      ((normalize_to_percentile f tmin tmax places)[j]?).map
        Place.diveiness_0_10 = (places[j]?).map Place.diveiness_0_10) := by
  constructor
  · intro T scale p
    rfl
  · intro f tmin tmax places j
    rcases normalize_pointwise f tmin tmax places j with h | ⟨p, v, hp, hres⟩
    · rw [h]
    · rw [hres, hp]
      simp only [Option.map]
      rw [(setF_preserves f v p).2.2.2.1]

/-! ### Concrete pipeline evaluations -/

theorem autoScale_pC1 : autoScale [pC1] = 0.2 := by
  norm_num [autoScale, pC1, List.filterMap, Option.orElse, percentile_sorted,
    max_def, List.insertionSort, List.orderedInsert]

theorem enrich_pC1 : enrich_place T0 0.2 pC1 = recC1 := by
  simp [enrich_place, calculate_dive_score, character_0_10, quality_0_10,
    underrated_0_10, blended_0_10, pC1, recC1, T0, clamp, Option.orElse,
    min_def, max_def]
  norm_num [round1, rnearest]

theorem rankedCore_pC1 : rankedCore T0 0.2 [pC1] = [recC1] := by
  have hnoop : ∀ f : ScoreField,
      ∀ tmin tmax : ℚ, normalize_to_percentile f tmin tmax [recC1] =
        [recC1] := by
    intro f tmin tmax
    apply normalize_noop
    cases f <;> norm_num [numericEntries, numericEntriesFrom, getF, recC1]
  have hblend : blended_0_10 recC1 = some 6.5 := by
    norm_num [blended_0_10, recC1, round1, rnearest]
    intro h
    simp at h
  simp only [rankedCore, List.map_cons, List.map_nil, enrich_pC1, hnoop,
    hblend]
  norm_num [recC1]

theorem get_locations_pC1_eval :
    get_locations T0 [pC1] 0 [] "any" SortKey.blended 120 = [recC1] := by
  simp only [get_locations, autoScale_pC1, rankedCore_pC1]
  norm_num [minReviewsFilter, kindsFilter, sortDesc, List.insertionSort,
    List.orderedInsert, List.take]

/-- Counterexample to C1 as stated: the place `pC1` (rating 3.998, 100
ratings, price 2, residual 0.2) has classifier total 84.96, so the pipeline
returns `dive_score = 85.0` with `dive_grade = "B"` — `dive_score ≥ 85` yet
the grade is not "A", because the grade is computed from the pre-rounding
total. -/
theorem C1_counterexample :
    (get_locations T0 [pC1] 0 [] "any" SortKey.blended 120).map
      (fun p => (p.dive_score, p.dive_grade)) = [(some 85, some "B")] ∧
    ((85 : ℚ) ≥ 85) ∧ (some "B" : Option String) ≠ some "A" := by
  refine ⟨?_, by norm_num, by simp⟩
  rw [get_locations_pC1_eval]
  norm_num [recC1]

/-- Witness for C1: the record returned for the singleton cohort `[pC1]`
satisfies the invariant. -/
theorem C1_witness : ScoreInv recC1 :=
  C1_score_ranges_and_grade T0 [pC1] 0 [] "any" SortKey.blended 120 recC1
    (by rw [get_locations_pC1_eval]; exact List.mem_singleton.mpr rfl)

/-- Witness for C3: the record returned for the singleton cohort `[pC1]` has
its blended score given by the spec formula of its final sub-scores. -/
theorem C3_witness :
    recC1.blended_0_10 = blendedSpec recC1.quality_0_10 recC1.character_0_10
      recC1.underrated_0_10 :=
  C3_blended_after_normalization.2 T0 [pC1] 0 [] "any" SortKey.blended 120
    recC1 (by rw [get_locations_pC1_eval]; exact List.mem_singleton.mpr rfl)

theorem normalize_cohortC7_eval :
    normalize_to_percentile .quality 2 9.5 cohortC7 =
      [{ quality_0_10 := some 2 }, { quality_0_10 := some 5.8 },
       { quality_0_10 := some 9.5 }] := by
  simp [normalize_to_percentile, numericEntries, numericEntriesFrom,
    cohortC7, getF, sortEntries, List.insertionSort, List.orderedInsert,
    writeScores, updateAt, setF, rankScore]
  norm_num [round1, rnearest]

/-- Counterexample to C7 as stated: the middle place of the [5.0, 7.0, 9.0]
cohort is normalized to 5.8, not 5.75 — the written-back score is rounded to
one decimal and 5.75 rounds (half to even) to 5.8. -/
theorem C7_counterexample :
    (normalize_to_percentile .quality 2 9.5 cohortC7).map (getF .quality) =
      [some 2, some 5.8, some 9.5] ∧
    (normalize_to_percentile .quality 2 9.5 cohortC7).map (getF .quality) ≠
      [some 2, some 5.75, some 9.5] := by
  have hmap : (normalize_to_percentile .quality 2 9.5 cohortC7).map
      (getF .quality) = [some 2, some 5.8, some 9.5] := by
    rw [normalize_cohortC7_eval]
    rfl
  refine ⟨hmap, ?_⟩
  rw [hmap]
  norm_num

/-- C7 (amended): the three-place cohort with raw quality [5.0, 7.0, 9.0] is
normalized with the default targets to [2.0, 5.8, 9.5]: ranks 0, 0.5, 1 are
mapped linearly into [2.0, 9.5], giving 2.0, 5.75, 9.5, and the written-back
values are rounded to 1 decimal, with 5.75 rounding half-to-even to 5.8. -/
theorem C7_cohort3_normalization :
    normalize_to_percentile .quality 2 9.5 cohortC7 =
      [{ quality_0_10 := some 2 }, { quality_0_10 := some 5.8 },
       { quality_0_10 := some 9.5 }] ∧
    (2 : ℚ) + 0.5 * (9.5 - 2) = 5.75 ∧ round1 ((5.75 : ℚ)) = 5.8 :=
  ⟨normalize_cohortC7_eval, by norm_num, by norm_num [round1, rnearest]⟩

/-- Witness for C2: on the concrete three-place cohort, normalization with
the default targets preserves the raw order (the places with raw 5.0 and 7.0
map to 2.0 ≤ 5.8), writes `round1 9.5 = 9.5` to some place, and stays within
the targets. -/
theorem C2_witness :
    (2 : ℚ) ≤ 5.8 ∧
    (∃ (j : ℕ) (pj' : Place),
      (normalize_to_percentile .quality 2 9.5 cohortC7)[j]? = some pj' ∧
      getF .quality pj' = some (round1 9.5)) := by
  have hC2 := C2_normalize_rank_preserving .quality 2 9.5 cohortC7
    (by norm_num)
  have hlen : 2 ≤ (numericEntries .quality cohortC7).length := by
    norm_num [numericEntries, numericEntriesFrom, cohortC7, getF]
  refine ⟨?_, (hC2.2.2 hlen).1⟩
  exact hC2.2.1 0 1 { quality_0_10 := some 5 } { quality_0_10 := some 7 }
    { quality_0_10 := some 2 } { quality_0_10 := some 5.8 } 5 7 2 5.8
    (by simp [cohortC7]) (by simp [cohortC7]) rfl rfl (by norm_num)
    (by rw [normalize_cohortC7_eval]; rfl)
    (by rw [normalize_cohortC7_eval]; rfl) rfl rfl

/-- Witness for C5: on `pC5` (which carries both residual keys), the
Underrated fallback value is determined by the deep key and the classifier
output is unchanged by deleting the deep key. -/
theorem C5_witness :
    underrated_0_10 T0 0.35 pC5 =
      round1 (clamp (5 + 5 * T0.tanh (-0.5 / max 0.10 0.35)) 0 10) ∧
    (calculate_dive_score pC5).dive_score =
      (calculate_dive_score { pC5 with ml_residual_deep := none }).dive_score :=
  ⟨(C5_residual_precedence pC5).1 T0 0.35 (-0.5) (Or.inl rfl) rfl,
   ((C5_residual_precedence pC5).2 0.5 rfl).1⟩

/-- Counterexample to C10 as stated: in the two-place cohort
`[pC10a, pC10b]`, the `/vibes` ranked-list response normalizes
`character_0_10` (5.0 and 10.0 become 2.0 and 9.5) but leaves
`diveiness_0_10` at the pre-normalization values 5.0 and 10.0, so the alias
does not hold on the returned records. -/
theorem C10_counterexample :
    (get_vibes T0 [pC10a, pC10b]).map
      (fun p => (p.diveiness_0_10, p.character_0_10)) =
      [(some 5, some 2), (some 10, some 9.5)] ∧
    (some (5 : ℚ)) ≠ some (2 : ℚ) := by
  refine ⟨?_, by norm_num⟩
  have hea : enrich_place T0 0.35 pC10a =
      { pC10a with
        dive_score := some 45
        dive_grade := some "D"
        gem_label := some "🚫 Avoid"
        diveiness_0_10 := some 5
        character_0_10 := some 5
        quality_0_10 := some 5
        underrated_0_10 := some 5
        blended_0_10 := some 5 } := by
    simp [enrich_place, calculate_dive_score, character_0_10, quality_0_10,
      underrated_0_10, blended_0_10, pC10a, T0, clamp, Option.orElse,
      min_def, max_def]
    norm_num [round1, rnearest]
  have heb : enrich_place T0 0.35 pC10b =
      { pC10b with
        dive_score := some 45
        dive_grade := some "D"
        gem_label := some "🚫 Avoid"
        diveiness_0_10 := some 10
        character_0_10 := some 10
        quality_0_10 := some 5
        underrated_0_10 := some 5
        blended_0_10 := some 6.8 } := by
    simp [enrich_place, calculate_dive_score, character_0_10, quality_0_10,
      underrated_0_10, blended_0_10, pC10b, T0, clamp, Option.orElse,
      min_def, max_def]
    norm_num [round1, rnearest]
  have hq : normalize_to_percentile .quality 2 9.5
      [{ pC10a with
          dive_score := some 45
          dive_grade := some "D"
          gem_label := some "🚫 Avoid"
          diveiness_0_10 := some 5
          character_0_10 := some 5
          quality_0_10 := some 5
          underrated_0_10 := some 5
          blended_0_10 := some 5 },
       { pC10b with
          dive_score := some 45
          dive_grade := some "D"
          gem_label := some "🚫 Avoid"
          diveiness_0_10 := some 10
          character_0_10 := some 10
          quality_0_10 := some 5
          underrated_0_10 := some 5
          blended_0_10 := some 6.8 }] =
      [{ pC10a with
          dive_score := some 45
          dive_grade := some "D"
          gem_label := some "🚫 Avoid"
          diveiness_0_10 := some 5
          character_0_10 := some 5
          quality_0_10 := some 2
          underrated_0_10 := some 5
          blended_0_10 := some 5 },
       { pC10b with
          dive_score := some 45
          dive_grade := some "D"
          gem_label := some "🚫 Avoid"
          diveiness_0_10 := some 10
          character_0_10 := some 10
          quality_0_10 := some 9.5
          underrated_0_10 := some 5
          blended_0_10 := some 6.8 }] := by
    simp [normalize_to_percentile, numericEntries, numericEntriesFrom, getF,
      sortEntries, List.insertionSort, List.orderedInsert, writeScores,
      updateAt, setF, rankScore, pC10a, pC10b]
    norm_num [round1, rnearest]
  have hc : normalize_to_percentile .character 2 9.5
      [{ pC10a with
          dive_score := some 45
          dive_grade := some "D"
          gem_label := some "🚫 Avoid"
          diveiness_0_10 := some 5
          character_0_10 := some 5
          quality_0_10 := some 2
          underrated_0_10 := some 5
          blended_0_10 := some 5 },
       { pC10b with
          dive_score := some 45
          dive_grade := some "D"
          gem_label := some "🚫 Avoid"
          diveiness_0_10 := some 10
          character_0_10 := some 10
          quality_0_10 := some 9.5
          underrated_0_10 := some 5
          blended_0_10 := some 6.8 }] =
      [{ pC10a with
          dive_score := some 45
          dive_grade := some "D"
          gem_label := some "🚫 Avoid"
          diveiness_0_10 := some 5
          character_0_10 := some 2
          quality_0_10 := some 2
          underrated_0_10 := some 5
          blended_0_10 := some 5 },
       { pC10b with
          dive_score := some 45
          dive_grade := some "D"
          gem_label := some "🚫 Avoid"
          diveiness_0_10 := some 10
          character_0_10 := some 9.5
          quality_0_10 := some 9.5
          underrated_0_10 := some 5
          blended_0_10 := some 6.8 }] := by
    simp [normalize_to_percentile, numericEntries, numericEntriesFrom, getF,
      sortEntries, List.insertionSort, List.orderedInsert, writeScores,
      updateAt, setF, rankScore, pC10a, pC10b]
    norm_num [round1, rnearest]
  have hu : normalize_to_percentile .underrated 2 9.5
      [{ pC10a with
          dive_score := some 45
          dive_grade := some "D"
          gem_label := some "🚫 Avoid"
          diveiness_0_10 := some 5
          character_0_10 := some 2
          quality_0_10 := some 2
          underrated_0_10 := some 5
          blended_0_10 := some 5 },
       { pC10b with
          dive_score := some 45
          dive_grade := some "D"
          gem_label := some "🚫 Avoid"
          diveiness_0_10 := some 10
          character_0_10 := some 9.5
          quality_0_10 := some 9.5
          underrated_0_10 := some 5
          blended_0_10 := some 6.8 }] =
      [{ pC10a with
          dive_score := some 45
          dive_grade := some "D"
          gem_label := some "🚫 Avoid"
          diveiness_0_10 := some 5
          character_0_10 := some 2
          quality_0_10 := some 2
          underrated_0_10 := some 2
          blended_0_10 := some 5 },
       { pC10b with
          dive_score := some 45
          dive_grade := some "D"
          gem_label := some "🚫 Avoid"
          diveiness_0_10 := some 10
          character_0_10 := some 9.5
          quality_0_10 := some 9.5
          underrated_0_10 := some 9.5
          blended_0_10 := some 6.8 }] := by
    simp [normalize_to_percentile, numericEntries, numericEntriesFrom, getF,
      sortEntries, List.insertionSort, List.orderedInsert, writeScores,
      updateAt, setF, rankScore, pC10a, pC10b]
    norm_num [round1, rnearest]
  simp only [get_vibes, rankedCore, List.map_cons, List.map_nil, hea, heb,
    hq, hc, hu]

end DiveBar
